import Mathlib

/-!
Shallow embedding of the sv6 physical page allocator (kalloc.cc) and proofs
about its specification.  Physical addresses (`uintptr_t`) are modelled as
`Nat`; the 64-bit constant `~0` is `UINTPTR_MAX`.  The `static_vector` of
regions is modelled as a `List`.
-/

/-- `~0` as a 64-bit `uintptr_t`. -/
def UINTPTR_MAX : Nat := 2 ^ 64 - 1

/-- `phys_map::region { uintptr_t base, end; }`, a half-open interval
`[base, end_)` of physical addresses. -/
structure region where
  base : Nat
  end_ : Nat
deriving Repr, DecidableEq

/-- A byte address `x` is a member of the map: some region contains it. -/
def regMem (x : Nat) (rs : List region) : Prop :=
  ∃ r ∈ rs, r.base ≤ x ∧ x < r.end_

instance (x : Nat) (rs : List region) : Decidable (regMem x rs) := by
  unfold regMem; infer_instance

/-- `phys_map::remove(base, end)`: subtract `[b, e)` from every region.
Each loop iteration either splits the region, erases it, truncates it on
the left or on the right, or leaves it alone; the C loop then moves on to
the next original region (the piece inserted by a split matches no
condition when `b ≤ e`). -/
def phys_remove (b e : Nat) : List region → List region
  | [] => []
  | r :: rest =>
    if r.base < b ∧ e < r.end_ then
      -- Split this region
      ⟨r.base, b⟩ :: ⟨e, r.end_⟩ :: phys_remove b e rest
    else if b ≤ r.base ∧ r.end_ ≤ e then
      -- Completely remove region
      phys_remove b e rest
    else if b ≤ r.base ∧ e > r.base then
      -- Left truncate
      ⟨e, r.end_⟩ :: phys_remove b e rest
    else if b < r.end_ ∧ e ≥ r.end_ then
      -- Right truncate
      ⟨r.base, b⟩ :: phys_remove b e rest
    else
      r :: phys_remove b e rest

/-- One scan of `phys_map::add`'s loop.  `.inl (pre, x, post)` means the
scan found the first overlapping region `x` (`rs = pre ++ x :: post`);
`.inr res` means no overlap was found and `res` is the vector with the new
region inserted at the first position whose `base` is `≥ b` (or at the
end). -/
def addStep (b e : Nat) : List region → (List region × region × List region) ⊕ (List region)
  | [] => .inr [⟨b, e⟩]
  | r :: rest =>
    if e ≥ r.base ∧ b ≤ r.end_ then
      .inl ([], r, rest)
    else if r.base ≥ b then
      .inr (⟨b, e⟩ :: r :: rest)
    else
      match addStep b e rest with
      | .inl (pre, x, post) => .inl (r :: pre, x, post)
      | .inr res => .inr (r :: res)

theorem addStep_inl (b e : Nat) (rs : List region) (pre post : List region) (x : region)
    (h : addStep b e rs = .inl (pre, x, post)) : rs = pre ++ x :: post := by
  induction rs generalizing pre with
  | nil => simp [addStep] at h
  | cons r rest ih =>
    unfold addStep at h
    split at h
    · simp only [Sum.inl.injEq, Prod.mk.injEq] at h
      obtain ⟨h1, h2, h3⟩ := h
      subst h1; subst h2; subst h3; rfl
    · split at h
      · simp at h
      · revert h
        split
        · next pre' x' post' heq =>
          intro h
          simp only [Sum.inl.injEq, Prod.mk.injEq] at h
          obtain ⟨h1, h2, h3⟩ := h
          subst h1; subst h2; subst h3
          simpa using ih _ heq
        · intro h; simp at h

/-- `phys_map::add(base, end)`: scan for an overlapping region; on overlap,
erase it and re-add the expanded region (the recursion in the C source);
otherwise insert at the sorted position. -/
def phys_add (b e : Nat) (rs : List region) : List region :=
  match h : addStep b e rs with
  | .inl (pre, x, post) => phys_add (min b x.base) (max e x.end_) (pre ++ post)
  | .inr res => res
termination_by rs.length
decreasing_by
  have := addStep_inl b e rs pre post x h
  subst this
  simp

/-- `phys_map::intersect(other)`'s loop: remove each complement gap
`[prevend, reg.base)` of `other`, then the final gap `[prevend, ~0)`. -/
def intersectGo (prevend : Nat) (rs : List region) : List region → List region
  | [] => phys_remove prevend UINTPTR_MAX rs
  | r :: rest => intersectGo r.end_ (phys_remove prevend r.base rs) rest

/-- `phys_map::intersect(other)`: clear if `other` is empty, else remove the
complement of `other`. -/
def phys_intersect (rs o : List region) : List region :=
  match o with
  | [] => []
  | _ :: _ => intersectGo 0 rs o

/-- The documented region-vector invariant: the regions are separated in
order (`a.end_ ≤ b.base` for every earlier `a`, later `b`) and every
region is proper (`base < end_`). -/
def phys_map_inv (rs : List region) : Prop :=
  List.Pairwise (fun a b => a.end_ ≤ b.base) rs ∧ ∀ r ∈ rs, r.base < r.end_

instance (rs : List region) : Decidable (phys_map_inv rs) := by
  unfold phys_map_inv; infer_instance

/-- Regions sorted by `base`. -/
def sortedByBase (rs : List region) : Prop :=
  List.Pairwise (fun a b => a.base ≤ b.base) rs

/-- Regions pairwise disjoint (as half-open intervals). -/
def pairwiseDisjoint (rs : List region) : Prop :=
  List.Pairwise (fun a b => a.end_ ≤ b.base ∨ b.end_ ≤ a.base) rs

/-- The invariant implies the spec's three properties: sorted by base,
pairwise disjoint, and `base < end` for every region. -/
theorem phys_map_inv_spec {rs : List region} (h : phys_map_inv rs) :
    sortedByBase rs ∧ pairwiseDisjoint rs ∧ ∀ r ∈ rs, r.base < r.end_ := by
  refine ⟨?_, ?_, h.2⟩
  · exact h.1.imp_of_mem (fun {a b} ha hb hab => by
      have := h.2 a ha; omega)
  · exact h.1.imp (fun hab => Or.inl hab)

theorem regMem_nil (x : Nat) : ¬ regMem x [] := by simp [regMem]

theorem regMem_cons (x : Nat) (r : region) (rs : List region) :
    regMem x (r :: rs) ↔ (r.base ≤ x ∧ x < r.end_) ∨ regMem x rs := by
  simp [regMem]

/-- Every region produced by `remove` is a sub-interval of an original
region. -/
theorem remove_subinterval {b e : Nat} (hbe : b ≤ e) {rs : List region} :
    ∀ s ∈ phys_remove b e rs, ∃ r ∈ rs, r.base ≤ s.base ∧ s.end_ ≤ r.end_ := by
  induction rs with
  | nil => intro s hs; simp [phys_remove] at hs
  | cons r rest ih =>
    intro s hs
    unfold phys_remove at hs
    have push : ∀ t : region, s = t ∨ s ∈ phys_remove b e rest →
        (r.base ≤ t.base ∧ t.end_ ≤ r.end_) →
        ∃ u ∈ r :: rest, u.base ≤ s.base ∧ s.end_ ≤ u.end_ := by
      intro t hst hsub
      rcases hst with h | h
      · subst h; exact ⟨r, by simp, hsub.1, hsub.2⟩
      · obtain ⟨u, hu, h1, h2⟩ := ih s h
        exact ⟨u, List.mem_cons_of_mem r hu, h1, h2⟩
    split at hs
    · rcases List.mem_cons.mp hs with h | h
      · exact push ⟨r.base, b⟩ (Or.inl h) (by simp; omega)
      · rcases List.mem_cons.mp h with h | h
        · exact push ⟨e, r.end_⟩ (Or.inl h) (by simp; omega)
        · exact push r (Or.inr h) (by simp)
    · split at hs
      · exact push r (Or.inr hs) (by simp)
      · split at hs
        · rcases List.mem_cons.mp hs with h | h
          · next h3 =>
            exact push ⟨e, r.end_⟩ (Or.inl h) (by simp; omega)
          · exact push r (Or.inr h) (by simp)
        · split at hs
          · rcases List.mem_cons.mp hs with h | h
            · next h4 =>
              exact push ⟨r.base, b⟩ (Or.inl h) (by simp; omega)
            · exact push r (Or.inr h) (by simp)
          · rcases List.mem_cons.mp hs with h | h
            · exact push r (Or.inl h) (by simp)
            · exact push r (Or.inr h) (by simp)

/-- `remove` preserves the region-vector invariant (for `b ≤ e`; the C
loop does not terminate when `b > e` straddles a region). -/
theorem remove_inv {b e : Nat} (hbe : b ≤ e) {rs : List region}
    (h : phys_map_inv rs) : phys_map_inv (phys_remove b e rs) := by
  obtain ⟨hpair, hprop⟩ := h
  induction rs with
  | nil => exact ⟨List.Pairwise.nil, by simp [phys_remove]⟩
  | cons r rest ih =>
    have hr : ∀ s ∈ rest, r.end_ ≤ s.base := (List.pairwise_cons.mp hpair).1
    have hrest : List.Pairwise (fun a b => a.end_ ≤ b.base) rest :=
      (List.pairwise_cons.mp hpair).2
    have hrprop : r.base < r.end_ := hprop r (by simp)
    have hrestprop : ∀ s ∈ rest, s.base < s.end_ :=
      fun s hs => hprop s (List.mem_cons_of_mem r hs)
    obtain ⟨ihp, ihq⟩ := ih hrest hrestprop
    -- every recursive output is a sub-interval of some element of rest,
    -- so `r.end_ ≤ its base`
    have hrecbase : ∀ s ∈ phys_remove b e rest, r.end_ ≤ s.base := by
      intro s hs
      obtain ⟨u, hu, h1, h2⟩ := remove_subinterval hbe s hs
      have := hr u hu
      omega
    unfold phys_remove
    split
    · next h1 =>
      refine ⟨?_, ?_⟩
      · refine List.pairwise_cons.mpr ⟨?_, List.pairwise_cons.mpr ⟨?_, ihp⟩⟩
        · intro s hs
          rcases List.mem_cons.mp hs with h | h
          · subst h; simpa using hbe
          · have := hrecbase s h; simp; omega
        · intro s hs; have := hrecbase s hs; simpa using this
      · intro s hs
        rcases List.mem_cons.mp hs with h | h
        · subst h; simp; omega
        · rcases List.mem_cons.mp h with h | h
          · subst h; simp; omega
          · exact ihq s h
    · split
      · exact ⟨ihp, ihq⟩
      · split
        · next h1 h2 h3 =>
          have hend : e < r.end_ := by
            rcases not_and_or.mp h2 with h | h
            · omega
            · omega
          refine ⟨List.pairwise_cons.mpr ⟨?_, ihp⟩, ?_⟩
          · intro s hs; have := hrecbase s hs; simp; omega
          · intro s hs
            rcases List.mem_cons.mp hs with h | h
            · subst h; simp; omega
            · exact ihq s h
        · next h1 h2 h3 =>
          split
          · next h4 =>
            have hbase : r.base < b := by
              rcases not_and_or.mp h2 with h | h
              · omega
              · omega
            refine ⟨List.pairwise_cons.mpr ⟨?_, ihp⟩, ?_⟩
            · intro s hs; have := hrecbase s hs; simp; omega
            · intro s hs
              rcases List.mem_cons.mp hs with h | h
              · subst h; simp; omega
              · exact ihq s h
          · refine ⟨List.pairwise_cons.mpr ⟨hrecbase, ihp⟩, ?_⟩
            intro s hs
            rcases List.mem_cons.mp hs with h | h
            · subst h; exact hrprop
            · exact ihq s h

theorem addStep_inr_sub (b e : Nat) (rs res : List region)
    (h : addStep b e rs = .inr res) : ∀ s ∈ res, s = ⟨b, e⟩ ∨ s ∈ rs := by
  induction rs generalizing res with
  | nil =>
    intro s hs
    simp only [addStep, Sum.inr.injEq] at h
    subst h
    simp at hs
    exact Or.inl hs
  | cons r rest ih =>
    intro s hs
    unfold addStep at h
    split at h
    · simp at h
    · split at h
      · simp only [Sum.inr.injEq] at h
        subst h
        rcases List.mem_cons.mp hs with h | h
        · exact Or.inl h
        · exact Or.inr h
      · revert h
        split
        · intro h; simp at h
        · next res' heq =>
          intro h
          simp only [Sum.inr.injEq] at h
          subst h
          rcases List.mem_cons.mp hs with h | h
          · exact Or.inr (by simp [h])
          · rcases ih res' heq s h with h | h
            · exact Or.inl h
            · exact Or.inr (List.mem_cons_of_mem r h)

theorem addStep_inr_inv (b e : Nat) (hbe : b < e) (rs res : List region)
    (hinv : phys_map_inv rs) (h : addStep b e rs = .inr res) :
    phys_map_inv res := by
  obtain ⟨hpair, hprop⟩ := hinv
  induction rs generalizing res with
  | nil =>
    simp only [addStep, Sum.inr.injEq] at h
    subst h
    exact ⟨by simp, by simp; omega⟩
  | cons r rest ih =>
    have hr : ∀ s ∈ rest, r.end_ ≤ s.base := (List.pairwise_cons.mp hpair).1
    have hrest := (List.pairwise_cons.mp hpair).2
    have hrprop : r.base < r.end_ := hprop r (by simp)
    have hrestprop : ∀ s ∈ rest, s.base < s.end_ :=
      fun s hs => hprop s (List.mem_cons_of_mem r hs)
    unfold addStep at h
    split at h
    · simp at h
    · split at h
      · next hov hge =>
        simp only [Sum.inr.injEq] at h
        subst h
        have heb : e < r.base := by
          rcases not_and_or.mp hov with h | h
          · omega
          · omega
        refine ⟨List.pairwise_cons.mpr ⟨?_, hpair⟩, ?_⟩
        · intro s hs
          rcases List.mem_cons.mp hs with h | h
          · subst h; simp; omega
          · have := hr s h; simp; omega
        · intro s hs
          rcases List.mem_cons.mp hs with h | h
          · subst h; simpa using hbe
          · exact hprop s h
      · next hov hge =>
        revert h
        split
        · intro h; simp at h
        · next res' heq =>
          intro h
          simp only [Sum.inr.injEq] at h
          subst h
          have hrb : r.base < b := by omega
          have hre : r.end_ < b := by
            rcases not_and_or.mp hov with h | h
            · omega
            · omega
          obtain ⟨ihp, ihq⟩ := ih res' heq hrest
            (fun s hs => hprop s (List.mem_cons_of_mem r hs))
          refine ⟨List.pairwise_cons.mpr ⟨?_, ihp⟩, ?_⟩
          · intro s hs
            rcases addStep_inr_sub b e rest res' heq s hs with h | h
            · subst h; simpa using Nat.le_of_lt hre
            · exact hr s h
          · intro s hs
            rcases List.mem_cons.mp hs with h | h
            · subst h; exact hrprop
            · exact ihq s h

/-- `add` preserves the region-vector invariant for proper arguments. -/
theorem add_inv (b e : Nat) (rs : List region) (hbe : b < e)
    (hinv : phys_map_inv rs) : phys_map_inv (phys_add b e rs) := by
  induction b, e, rs using phys_add.induct with
  | case1 b e rs pre x post heq ih =>
    rw [phys_add, heq]
    have hsplit := addStep_inl b e rs pre post x heq
    subst hsplit
    have hx : x.base < x.end_ := hinv.2 x (by simp)
    refine ih (by omega) ?_
    have hsub : (pre ++ post).Sublist (pre ++ x :: post) := by
      refine List.Sublist.append_left ?_ pre
      exact List.sublist_cons_self x post
    exact ⟨hinv.1.sublist hsub, fun r hr => hinv.2 r (hsub.mem hr)⟩
  | case2 b e rs res heq =>
    rw [phys_add, heq]
    exact addStep_inr_inv b e hbe rs res hinv heq

/-- Pointwise semantics of `remove`: a byte survives iff it was present
and is outside `[b, e)`. -/
theorem mem_remove {b e x : Nat} (hbe : b ≤ e) (rs : List region) :
    regMem x (phys_remove b e rs) ↔ regMem x rs ∧ ¬(b ≤ x ∧ x < e) := by
  induction rs with
  | nil => simp [phys_remove, regMem]
  | cons r rest ih =>
    unfold phys_remove
    split
    · next hc =>
      simp only [regMem_cons, ih]
      by_cases hP : regMem x rest <;> simp [hP] <;> omega
    · next hc =>
      split
      · next hc2 =>
        rw [ih, regMem_cons]
        by_cases hP : regMem x rest <;> simp [hP] <;> omega
      · next hc2 =>
        split
        · next hc3 =>
          have hre : e < r.end_ := by omega
          simp only [regMem_cons, ih]
          by_cases hP : regMem x rest <;> simp [hP] <;> omega
        · next hc3 =>
          split
          · next hc4 =>
            have hrb : r.base < b := by
              rcases not_and_or.mp hc2 with h | h
              · omega
              · omega
            simp only [regMem_cons, ih]
            by_cases hP : regMem x rest <;> simp [hP] <;> omega
          · next hc4 =>
            have hout : r.end_ ≤ b ∨ e ≤ r.base := by
              rcases not_and_or.mp hc with h | h
              · omega
              · rcases not_and_or.mp hc2 with h2 | h2
                · rcases not_and_or.mp hc3 with h3 | h3
                  · omega
                  · omega
                · rcases not_and_or.mp hc4 with h4 | h4
                  · omega
                  · omega
            simp only [regMem_cons, ih]
            by_cases hP : regMem x rest <;> simp [hP] <;> omega

theorem intersectGo_inv (o : List region) :
    ∀ (prevend : Nat) (rs : List region), phys_map_inv rs →
    (∀ r ∈ o, prevend ≤ r.base) →
    List.Pairwise (fun a b => a.end_ ≤ b.base) o →
    (∀ r ∈ o, r.end_ ≤ UINTPTR_MAX) → prevend ≤ UINTPTR_MAX →
    phys_map_inv (intersectGo prevend rs o) := by
  induction o with
  | nil =>
    intro prevend rs hinv h1 h2 h4 h5
    exact remove_inv h5 hinv
  | cons r rest ih =>
    intro prevend rs hinv h1 h2 h4 h5
    exact ih r.end_ _ (remove_inv (h1 r (by simp)) hinv)
      (List.pairwise_cons.mp h2).1
      (List.pairwise_cons.mp h2).2
      (fun s hs => h4 s (List.mem_cons_of_mem r hs))
      (h4 r (by simp))

/-- `intersect` preserves the region-vector invariant when the other map
satisfies it and is bounded by `~0`. -/
theorem intersect_inv (rs o : List region) (hinv : phys_map_inv rs)
    (ho : phys_map_inv o) (hob : ∀ r ∈ o, r.end_ ≤ UINTPTR_MAX) :
    phys_map_inv (phys_intersect rs o) := by
  match o with
  | [] =>
    show phys_map_inv []
    exact ⟨List.Pairwise.nil, by simp⟩
  | r :: rest =>
    exact intersectGo_inv (r :: rest) 0 rs hinv (fun s hs => Nat.zero_le _)
      ho.1 hob (Nat.zero_le _)

theorem mem_intersectGo {x : Nat} (o : List region) :
    ∀ (prevend : Nat) (rs : List region),
    (∀ r ∈ o, prevend ≤ r.base) →
    List.Pairwise (fun a b => a.end_ ≤ b.base) o →
    (∀ r ∈ o, r.base < r.end_) →
    (∀ r ∈ o, r.end_ ≤ UINTPTR_MAX) →
    prevend ≤ UINTPTR_MAX →
    (regMem x (intersectGo prevend rs o) ↔
      regMem x rs ∧ (x < prevend ∨ regMem x o ∨ UINTPTR_MAX ≤ x)) := by
  induction o with
  | nil =>
    intro prevend rs h1 h2 h3 h4 h5
    simp only [intersectGo]
    rw [mem_remove h5]
    constructor
    · rintro ⟨hA, h⟩
      refine ⟨hA, ?_⟩
      rcases not_and_or.mp h with h | h
      · exact Or.inl (by omega)
      · exact Or.inr (Or.inr (by omega))
    · rintro ⟨hA, h⟩
      refine ⟨hA, ?_⟩
      rcases h with h | h | h
      · omega
      · exact absurd h (regMem_nil x)
      · omega
  | cons r rest ih =>
    intro prevend rs h1 h2 h3 h4 h5
    have hr1 : prevend ≤ r.base := h1 r (by simp)
    have hrhead : ∀ s ∈ rest, r.end_ ≤ s.base := (List.pairwise_cons.mp h2).1
    have hrprop : r.base < r.end_ := h3 r (by simp)
    have hrmax : r.end_ ≤ UINTPTR_MAX := h4 r (by simp)
    simp only [intersectGo]
    rw [ih r.end_ _ hrhead (List.pairwise_cons.mp h2).2
      (fun s hs => h3 s (List.mem_cons_of_mem r hs))
      (fun s hs => h4 s (List.mem_cons_of_mem r hs)) hrmax]
    rw [mem_remove hr1, regMem_cons]
    constructor
    · rintro ⟨⟨hA, hnb⟩, hC⟩
      refine ⟨hA, ?_⟩
      by_cases hxp : x < prevend
      · exact Or.inl hxp
      · have hxb : r.base ≤ x := by
          rcases not_and_or.mp hnb with h | h
          · omega
          · omega
        rcases hC with h | h | h
        · exact Or.inr (Or.inl (Or.inl ⟨hxb, h⟩))
        · exact Or.inr (Or.inl (Or.inr h))
        · exact Or.inr (Or.inr h)
    · rintro ⟨hA, hor⟩
      rcases hor with h | h | h
      · exact ⟨⟨hA, by omega⟩, Or.inl (by omega)⟩
      · rcases h with h | h
        · exact ⟨⟨hA, by omega⟩, Or.inl h.2⟩
        · have hEx : r.end_ ≤ x := by
            obtain ⟨r', hr', hx1, hx2⟩ := h
            exact le_trans (hrhead r' hr') hx1
          exact ⟨⟨hA, by omega⟩, Or.inr (Or.inl h)⟩
      · exact ⟨⟨hA, by omega⟩, Or.inr (Or.inr h)⟩

/-- Pointwise semantics of `intersect`: a byte survives iff it is present
in both maps (for maps bounded by the `uintptr_t` range, which is implicit
in the C types). -/
theorem mem_intersect (rs o : List region) (x : Nat)
    (ho : phys_map_inv o)
    (hob : ∀ r ∈ o, r.end_ ≤ UINTPTR_MAX)
    (hrb : ∀ r ∈ rs, r.end_ ≤ UINTPTR_MAX) :
    regMem x (phys_intersect rs o) ↔ regMem x rs ∧ regMem x o := by
  match o with
  | [] => simp [phys_intersect, regMem]
  | r :: rest =>
    rw [show phys_intersect rs (r :: rest) = intersectGo 0 rs (r :: rest) from rfl]
    rw [mem_intersectGo (r :: rest) 0 rs (fun s hs => Nat.zero_le _) ho.1
      ho.2 hob (Nat.zero_le _)]
    constructor
    · rintro ⟨hA, h⟩
      refine ⟨hA, ?_⟩
      obtain ⟨u, hu, hu1, hu2⟩ := hA
      have := hrb u hu
      rcases h with h | h | h
      · omega
      · exact h
      · omega
    · rintro ⟨hA, hO⟩
      exact ⟨hA, Or.inr (Or.inl hO)⟩

/-- `2^64`, one past the largest `uintptr_t`/`size_t` value. -/
def USIZE : Nat := 2 ^ 64

/-- The source's alignment expression `(pa + align - 1) & ~(align - 1)` on
64-bit `uintptr_t`: `~(align - 1)` equals `2^64 - align` for `align ≠ 0`. -/
def align_up (pa align : Nat) : Nat := (pa + align - 1) &&& (USIZE - align)

/-- `phys_map::alloc`'s updated `pa` at the top of each loop iteration:
`if (pa == 0) pa = reg.base`. -/
def paAdj (pa : Nat) (r : region) : Nat := if pa = 0 then r.base else pa

/-- `phys_map::alloc`'s alignment step: `if (align) pa = (pa + align - 1)
& ~(align - 1)`. -/
def paAl (pa align : Nat) : Nat := if align ≠ 0 then align_up pa align else pa

/-- The loop of `phys_map::alloc`.  The final `panic` calls (out of
memory, or bad start address) are modelled as `none`.  `pa + size` is
reduced modulo `2^64` as in the C comparison `pa + size < reg.end`. -/
def allocGo (size align : Nat) : Nat → List region → Option Nat
  | _, [] => none
  | pa, r :: rest =>
    if r.base ≤ paAdj pa r ∧ paAdj pa r ≤ r.end_ then
      if (paAl (paAdj pa r) align + size) % USIZE < r.end_ then
        some (paAl (paAdj pa r) align)
      else
        allocGo size align 0 rest
    else
      allocGo size align (paAdj pa r) rest

/-- `phys_map::alloc(start, size, align)` (addresses kept physical; the
`v2p`/`p2v` translations are the identity on the physical view). -/
def phys_alloc (rs : List region) (start size align : Nat) : Option Nat :=
  allocGo size align start rs

theorem roundup_facts (x a : Nat) (ha : 0 < a) :
    x ≤ (x + a - 1) / a * a ∧ (x + a - 1) / a * a < x + a := by
  have hd := Nat.div_add_mod (x + a - 1) a
  have hm : (x + a - 1) % a < a := Nat.mod_lt _ ha
  have hc : a * ((x + a - 1) / a) = (x + a - 1) / a * a := Nat.mul_comm _ _
  omega

theorem roundup_least (x a c : Nat) (ha : 0 < a) (h : x ≤ a * c) :
    (x + a - 1) / a * a ≤ a * c := by
  have hq : (x + a - 1) / a ≤ c := by
    by_contra hgt
    push_neg at hgt
    have h2 : a * (c + 1) ≤ a * ((x + a - 1) / a) := Nat.mul_le_mul_left a hgt
    have hd := Nat.div_add_mod (x + a - 1) a
    have hm : (x + a - 1) % a < a := Nat.mod_lt _ ha
    have h3 : a * c + a = a * (c + 1) := by ring
    omega
  calc (x + a - 1) / a * a = a * ((x + a - 1) / a) := Nat.mul_comm _ _
  _ ≤ a * c := Nat.mul_le_mul_left a hq

/-- For a power-of-two alignment within the 64-bit range, the source's
mask expression computes the usual round-up to a multiple. -/
theorem align_up_pow2 {k pa : Nat} (hk : k < 64) (hov : pa + 2 ^ k ≤ USIZE) :
    align_up pa (2 ^ k) = (pa + 2 ^ k - 1) / 2 ^ k * 2 ^ k := by
  have hkpos : (0:Nat) < 2 ^ k := Nat.pos_pow_of_pos k (by omega)
  have hx : pa + 2 ^ k - 1 < 2 ^ 64 := by
    have : USIZE = 2 ^ 64 := rfl
    omega
  have hmask : USIZE - 2 ^ k = (2 ^ (64 - k) - 1) <<< k := by
    rw [Nat.shiftLeft_eq, Nat.sub_mul, one_mul, ← pow_add]
    have : 64 - k + k = 64 := by omega
    rw [this]
    rfl
  have hrhs : (pa + 2 ^ k - 1) / 2 ^ k * 2 ^ k = ((pa + 2 ^ k - 1) >>> k) <<< k := by
    rw [Nat.shiftRight_eq_div_pow, Nat.shiftLeft_eq]
  rw [align_up, hmask, hrhs]
  apply Nat.eq_of_testBit_eq
  intro i
  rw [Nat.testBit_land, Nat.testBit_shiftLeft, Nat.testBit_shiftLeft,
    Nat.testBit_shiftRight, Nat.testBit_two_pow_sub_one]
  by_cases hik : k ≤ i
  · by_cases hi64 : i < 64
    · have h1 : i - k < 64 - k := by omega
      have h2 : k + (i - k) = i := by omega
      simp [hik, h1, h2]
    · have hlt : pa + 2 ^ k - 1 < 2 ^ i := by
        calc pa + 2 ^ k - 1 < 2 ^ 64 := hx
        _ ≤ 2 ^ i := Nat.pow_le_pow_right (by omega) (by omega)
      have h3 : (pa + 2 ^ k - 1).testBit i = false := Nat.testBit_lt_two_pow hlt
      have h4 : ¬(i - k < 64 - k) := by omega
      simp [hik, h3, h4]
  · simp [hik]

theorem paAl_facts {align : Nat} (pa : Nat)
    (halign : align = 0 ∨ ∃ k, k < 64 ∧ align = 2 ^ k)
    (hov : pa + align ≤ USIZE) :
    pa ≤ paAl pa align ∧ paAl pa align ≤ pa + align ∧
      (align ≠ 0 → align ∣ paAl pa align) := by
  rcases halign with h | ⟨k, hk, h⟩
  · subst h
    simp [paAl]
  · subst h
    have hpow : (2:Nat) ^ k ≠ 0 := by positivity
    have hkpos : (0:Nat) < 2 ^ k := by positivity
    rw [paAl, if_pos hpow, align_up_pow2 hk hov]
    obtain ⟨h1, h2⟩ := roundup_facts pa (2 ^ k) hkpos
    refine ⟨h1, by omega, fun _ => ?_⟩
    exact Dvd.intro_left _ rfl

theorem paAl_least {align pa q : Nat}
    (halign : align = 0 ∨ ∃ k, k < 64 ∧ align = 2 ^ k)
    (hov : pa + align ≤ USIZE)
    (hdvd : align ≠ 0 → align ∣ q) (hge : pa ≤ q) : paAl pa align ≤ q := by
  rcases halign with h | ⟨k, hk, h⟩
  · subst h
    simpa [paAl] using hge
  · subst h
    have hpow : (2:Nat) ^ k ≠ 0 := by positivity
    have hkpos : (0:Nat) < 2 ^ k := by positivity
    rw [paAl, if_pos hpow, align_up_pow2 hk hov]
    obtain ⟨c, rfl⟩ := hdvd hpow
    exact roundup_least pa (2 ^ k) c hkpos hge

/-- A fit as the code computes it: aligned, and `[q, q + size]` inside a
region (the source tests `pa + size < reg.end`, strictly). -/
def isFit (rs : List region) (size align q : Nat) : Prop :=
  (align ≠ 0 → align ∣ q) ∧ ∃ r ∈ rs, r.base ≤ q ∧ q + size < r.end_

instance (rs : List region) (size align q : Nat) :
    Decidable (isFit rs size align q) := by
  unfold isFit; infer_instance

/-- A fit as the claim words it: aligned, and the half-open `[q, q + size)`
inside a region. -/
def specFit (rs : List region) (size align q : Nat) : Prop :=
  (align ≠ 0 → align ∣ q) ∧ ∃ r ∈ rs, r.base ≤ q ∧ q + size ≤ r.end_

instance (rs : List region) (size align q : Nat) :
    Decidable (specFit rs size align q) := by
  unfold specFit; infer_instance

theorem isFit_cons {r : region} {rest : List region} {size align q : Nat} :
    isFit (r :: rest) size align q ↔
      ((align ≠ 0 → align ∣ q) ∧ r.base ≤ q ∧ q + size < r.end_) ∨
        isFit rest size align q := by
  constructor
  · rintro ⟨hal, r', hr', h1, h2⟩
    rcases List.mem_cons.mp hr' with h | h
    · subst h; exact Or.inl ⟨hal, h1, h2⟩
    · exact Or.inr ⟨hal, r', h, h1, h2⟩
  · rintro (⟨hal, h1, h2⟩ | ⟨hal, r', hr', h1, h2⟩)
    · exact ⟨hal, r, by simp, h1, h2⟩
    · exact ⟨hal, r', List.mem_cons_of_mem r hr', h1, h2⟩

/-- Correctness of the `alloc` scan: starting at `pa` (either zero or an
address accepted by some region's closed bounds test), the scan returns
the least fitting address at or above `pa`, or reports failure exactly
when no such address exists. -/
theorem allocGo_correct (size align : Nat)
    (halign : align = 0 ∨ ∃ k, k < 64 ∧ align = 2 ^ k) :
    ∀ (rs : List region) (pa : Nat),
    phys_map_inv rs →
    (∀ r ∈ rs, r.end_ + align + size < USIZE) →
    (pa = 0 ∨ ∃ r ∈ rs, r.base ≤ pa ∧ pa ≤ r.end_) →
    (∃ p, allocGo size align pa rs = some p ∧ pa ≤ p ∧
        isFit rs size align p ∧
        ∀ q, pa ≤ q → isFit rs size align q → p ≤ q) ∨
      (allocGo size align pa rs = none ∧
        ∀ q, pa ≤ q → ¬ isFit rs size align q) := by
  intro rs
  induction rs with
  | nil =>
    intro pa hinv hbound hpa
    refine Or.inr ⟨rfl, ?_⟩
    rintro q hq ⟨hal, r, hr, h1, h2⟩
    simp at hr
  | cons r rest ih =>
    intro pa hinv hbound hpa
    have hrprop : r.base < r.end_ := hinv.2 r (by simp)
    have hrpair : ∀ s ∈ rest, r.end_ ≤ s.base := (List.pairwise_cons.mp hinv.1).1
    have hinvrest : phys_map_inv rest :=
      ⟨(List.pairwise_cons.mp hinv.1).2,
        fun s hs => hinv.2 s (List.mem_cons_of_mem r hs)⟩
    have hboundrest : ∀ s ∈ rest, s.end_ + align + size < USIZE :=
      fun s hs => hbound s (List.mem_cons_of_mem r hs)
    have hrbound : r.end_ + align + size < USIZE := hbound r (by simp)
    -- the shared argument for an iteration whose region test succeeds
    have entered : ∀ pa1 : Nat, r.base ≤ pa1 → pa1 ≤ r.end_ →
        (∃ p, (if (paAl pa1 align + size) % USIZE < r.end_ then
              some (paAl pa1 align) else allocGo size align 0 rest) = some p ∧
          pa1 ≤ p ∧ isFit (r :: rest) size align p ∧
          ∀ q, pa1 ≤ q → isFit (r :: rest) size align q → p ≤ q) ∨
        ((if (paAl pa1 align + size) % USIZE < r.end_ then
              some (paAl pa1 align) else allocGo size align 0 rest) = none ∧
          ∀ q, pa1 ≤ q → ¬ isFit (r :: rest) size align q) := by
      intro pa1 hge hle
      have hov : pa1 + align ≤ USIZE := by omega
      obtain ⟨hp1, hp2, hp3⟩ := paAl_facts pa1 halign hov
      have hmod : (paAl pa1 align + size) % USIZE = paAl pa1 align + size :=
        Nat.mod_eq_of_lt (by omega)
      rw [hmod]
      by_cases hfit : paAl pa1 align + size < r.end_
      · rw [if_pos hfit]
        refine Or.inl ⟨paAl pa1 align, rfl, hp1, ?_, ?_⟩
        · exact ⟨hp3, r, by simp, by omega, hfit⟩
        · intro q hq hqfit
          rcases isFit_cons.mp hqfit with ⟨hal, h1, h2⟩ | ⟨hal, r', hr', h1, h2⟩
          · exact paAl_least halign hov hal hq
          · have := hrpair r' hr'
            omega
      · rw [if_neg hfit]
        rcases ih 0 hinvrest hboundrest (Or.inl rfl) with
          ⟨p, heq, _, hpfit, hpmin⟩ | ⟨heq, hnofit⟩
        · refine Or.inl ⟨p, heq, ?_, ?_, ?_⟩
          · obtain ⟨_, r', hr', h1, _⟩ := hpfit
            have := hrpair r' hr'
            omega
          · exact isFit_cons.mpr (Or.inr hpfit)
          · intro q hq hqfit
            rcases isFit_cons.mp hqfit with ⟨hal, h1, h2⟩ | hrest
            · have : paAl pa1 align ≤ q := paAl_least halign hov hal (by omega)
              omega
            · exact hpmin q (Nat.zero_le q) hrest
        · refine Or.inr ⟨heq, ?_⟩
          intro q hq hqfit
          rcases isFit_cons.mp hqfit with ⟨hal, h1, h2⟩ | hrest
          · have : paAl pa1 align ≤ q := paAl_least halign hov hal (by omega)
            omega
          · exact hnofit q (Nat.zero_le q) hrest
    by_cases hpa0 : pa = 0
    · subst hpa0
      have hadj : paAdj 0 r = r.base := by simp [paAdj]
      have htest : r.base ≤ paAdj 0 r ∧ paAdj 0 r ≤ r.end_ := by
        rw [hadj]; omega
      have hstep : allocGo size align 0 (r :: rest) =
          (if (paAl r.base align + size) % USIZE < r.end_ then
            some (paAl r.base align) else allocGo size align 0 rest) := by
        simp only [allocGo]
        rw [if_pos htest, hadj]
      rcases entered r.base (Nat.le_refl _) (by omega) with
        ⟨p, heq, hge, hfit, hmin⟩ | ⟨heq, hnofit⟩
      · exact Or.inl ⟨p, by rw [hstep]; exact heq, Nat.zero_le _, hfit,
          fun q hq hqf => by
            have hqb : r.base ≤ q := by
              rcases isFit_cons.mp hqf with ⟨_, h1, _⟩ | ⟨_, r', hr', h1, _⟩
              · exact h1
              · have := hrpair r' hr'
                omega
            exact hmin q hqb hqf⟩
      · refine Or.inr ⟨by rw [hstep]; exact heq, ?_⟩
        intro q hq hqf
        have hqb : r.base ≤ q := by
          rcases isFit_cons.mp hqf with ⟨_, h1, _⟩ | ⟨_, r', hr', h1, _⟩
          · exact h1
          · have := hrpair r' hr'
            omega
        exact hnofit q hqb hqf
    · have hadj : paAdj pa r = pa := by simp [paAdj, hpa0]
      rcases hpa with h | ⟨rw_, hrw, hrw1, hrw2⟩
      · exact absurd h hpa0
      by_cases htest : r.base ≤ pa ∧ pa ≤ r.end_
      · have hstep : allocGo size align pa (r :: rest) =
            (if (paAl pa align + size) % USIZE < r.end_ then
              some (paAl pa align) else allocGo size align 0 rest) := by
          simp only [allocGo]
          rw [hadj, if_pos htest]
        rcases entered pa htest.1 htest.2 with
          ⟨p, heq, hge, hfit, hmin⟩ | ⟨heq, hnofit⟩
        · exact Or.inl ⟨p, by rw [hstep]; exact heq, hge, hfit, hmin⟩
        · exact Or.inr ⟨by rw [hstep]; exact heq, hnofit⟩
      · have hrwrest : rw_ ∈ rest := by
          rcases List.mem_cons.mp hrw with h | h
          · subst h; exact absurd ⟨hrw1, hrw2⟩ htest
          · exact h
        have hstep : allocGo size align pa (r :: rest) =
            allocGo size align pa rest := by
          simp only [allocGo]
          rw [hadj, if_neg htest]
        have hparw : r.end_ ≤ pa := by
          have := hrpair rw_ hrwrest
          omega
        rcases ih pa hinvrest hboundrest (Or.inr ⟨rw_, hrwrest, hrw1, hrw2⟩) with
          ⟨p, heq, hge, hpfit, hpmin⟩ | ⟨heq, hnofit⟩
        · refine Or.inl ⟨p, by rw [hstep]; exact heq, hge,
            isFit_cons.mpr (Or.inr hpfit), ?_⟩
          intro q hq hqf
          rcases isFit_cons.mp hqf with ⟨hal, h1, h2⟩ | hrest
          · omega
          · exact hpmin q hq hrest
        · refine Or.inr ⟨by rw [hstep]; exact heq, ?_⟩
          intro q hq hqf
          rcases isFit_cons.mp hqf with ⟨hal, h1, h2⟩ | hrest
          · omega
          · exact hnofit q hq hrest

/-- Claim C2 counterexample: on the map `{[0, 10)}` with `start = 0`,
`size = 10` and no alignment, an address satisfying the claim's fit
condition exists (`p = 0`, since `[0, 10) ⊆ [0, 10)`), yet `alloc`
panics (modelled as `none`): the code demands `pa + size < reg.end`
strictly, so a region is never filled to its last byte. -/
theorem C2_counterexample :
    phys_alloc [⟨0, 10⟩] 0 10 0 = none ∧ specFit [⟨0, 10⟩] 10 0 0 := by
  decide

/-- Claim C2 (amended): `alloc(start, size, align)` scans for the first
address `p ≥ start` (starting at the first region's base when `start` is
zero), rounded up to the power-of-two `align`, such that the closed
interval `[p, p + size]` lies within a single region (the code tests
`pa + size < reg.end` strictly); it panics when no such address exists.
A nonzero `start` must lie within some region's closed bounds (otherwise
the code panics with "bad start address" even if fits exist). -/
theorem C2_alloc_first_fit (rs : List region) (start size align : Nat)
    (hinv : phys_map_inv rs)
    (halign : align = 0 ∨ ∃ k, k < 64 ∧ align = 2 ^ k)
    (hbound : ∀ r ∈ rs, r.end_ + align + size < USIZE)
    (hstart : start = 0 ∨ ∃ r ∈ rs, r.base ≤ start ∧ start ≤ r.end_) :
    (∃ p, phys_alloc rs start size align = some p ∧ start ≤ p ∧
        isFit rs size align p ∧
        ∀ q, start ≤ q → isFit rs size align q → p ≤ q) ∨
      (phys_alloc rs start size align = none ∧
        ∀ q, start ≤ q → ¬ isFit rs size align q) :=
  allocGo_correct size align halign rs start hinv hbound hstart

theorem C2_alloc_first_fit_witness :
    (∃ p, phys_alloc [⟨4096, 65536⟩] 0 100 8 = some p ∧ 0 ≤ p ∧
        isFit [⟨4096, 65536⟩] 100 8 p ∧
        ∀ q, 0 ≤ q → isFit [⟨4096, 65536⟩] 100 8 q → p ≤ q) ∨
      (phys_alloc [⟨4096, 65536⟩] 0 100 8 = none ∧
        ∀ q, 0 ≤ q → ¬ isFit [⟨4096, 65536⟩] 100 8 q) :=
  C2_alloc_first_fit [⟨4096, 65536⟩] 0 100 8 (by decide)
    (Or.inr ⟨3, by decide⟩) (by decide) (Or.inl rfl)

/-- A `phys_map` operation with its arguments. -/
inductive phys_op where
  | add (b e : Nat)
  | remove (b e : Nat)
  | intersect (o : List region)

/-- Apply one operation to the region vector. -/
def apply_op (rs : List region) : phys_op → List region
  | .add b e => phys_add b e rs
  | .remove b e => phys_remove b e rs
  | .intersect o => phys_intersect rs o

/-- Apply a sequence of operations, starting from `rs`. -/
def apply_ops (rs : List region) (ops : List phys_op) : List region :=
  ops.foldl apply_op rs

/-- Well-formed arguments: a proper range for `add`, a non-inverted range
for `remove` (the C loop diverges on `b > e`), and a well-formed bounded
map for `intersect`. -/
def op_valid : phys_op → Prop
  | .add b e => b < e
  | .remove b e => b ≤ e
  | .intersect o => phys_map_inv o ∧ ∀ r ∈ o, r.end_ ≤ UINTPTR_MAX

instance (op : phys_op) : Decidable (op_valid op) := by
  cases op <;> (unfold op_valid; infer_instance)

theorem apply_ops_inv (ops : List phys_op) :
    ∀ rs : List region, phys_map_inv rs → (∀ op ∈ ops, op_valid op) →
    phys_map_inv (apply_ops rs ops) := by
  induction ops with
  | nil => intro rs h _; exact h
  | cons op rest ih =>
    intro rs h hval
    refine ih (apply_op rs op) ?_ (fun o ho => hval o (List.mem_cons_of_mem op ho))
    have hv := hval op (by simp)
    cases op with
    | add b e => exact add_inv b e rs hv h
    | remove b e => exact remove_inv hv h
    | intersect o => exact intersect_inv rs o h hv.1 hv.2

/-- `remove` does not change regions strictly separated from `[b, e)`. -/
theorem remove_noop {b e : Nat} (hbe : b ≤ e) {rs : List region}
    (hprop : ∀ r ∈ rs, r.base < r.end_)
    (hsep : ∀ r ∈ rs, e < r.base ∨ r.end_ < b) :
    phys_remove b e rs = rs := by
  induction rs with
  | nil => rfl
  | cons r rest ih =>
    have hr := hsep r (by simp)
    have hp := hprop r (by simp)
    have h1 : ¬(r.base < b ∧ e < r.end_) := by
      rcases hr with h | h
      · omega
      · omega
    have h2 : ¬(b ≤ r.base ∧ r.end_ ≤ e) := by
      rcases hr with h | h
      · omega
      · omega
    have h3 : ¬(b ≤ r.base ∧ e > r.base) := by
      rcases hr with h | h
      · omega
      · omega
    have h4 : ¬(b < r.end_ ∧ e ≥ r.end_) := by
      rcases hr with h | h
      · omega
      · omega
    simp only [phys_remove]
    rw [if_neg h1, if_neg h2, if_neg h3, if_neg h4,
      ih (fun s hs => hprop s (List.mem_cons_of_mem r hs))
        (fun s hs => hsep s (List.mem_cons_of_mem r hs))]

/-- When the new range is strictly separated from every region, `add`'s
scan reports no overlap and the inserted region is removed exactly by the
matching `remove`. -/
theorem addsep {b e : Nat} (hbe : b < e) {rs : List region}
    (hinv : phys_map_inv rs)
    (hsep : ∀ r ∈ rs, e < r.base ∨ r.end_ < b) :
    ∃ res, addStep b e rs = .inr res ∧ phys_remove b e res = rs := by
  obtain ⟨hpair, hprop⟩ := hinv
  induction rs with
  | nil =>
    refine ⟨[⟨b, e⟩], rfl, ?_⟩
    simp only [phys_remove]
    rw [if_neg (by simp), if_pos (by simp)]
  | cons r rest ih =>
    have hrsep := hsep r (by simp)
    have hrp : r.base < r.end_ := hprop r (by simp)
    have hrestpair := (List.pairwise_cons.mp hpair).2
    have hrestprop : ∀ s ∈ rest, s.base < s.end_ :=
      fun s hs => hprop s (List.mem_cons_of_mem r hs)
    have hrestsep : ∀ s ∈ rest, e < s.base ∨ s.end_ < b :=
      fun s hs => hsep s (List.mem_cons_of_mem r hs)
    rcases hrsep with hl | hl
    · -- e < r.base : insert before r
      refine ⟨⟨b, e⟩ :: r :: rest, ?_, ?_⟩
      · simp only [addStep]
        rw [if_neg (by omega), if_pos (by omega)]
      · simp only [phys_remove]
        rw [if_neg (by simp), if_pos (by simp)]
        exact remove_noop (Nat.le_of_lt hbe) hprop hsep
    · -- r.end_ < b : r is scanned past
      obtain ⟨res', hstep', hrem'⟩ := ih hrestsep hrestpair hrestprop
      refine ⟨r :: res', ?_, ?_⟩
      · simp only [addStep]
        rw [if_neg (by omega), if_neg (by omega), hstep']
      · simp only [phys_remove]
        rw [if_neg (by omega), if_neg (by omega), if_neg (by omega),
          if_neg (by omega), hrem']

/-- Unfolding `phys_add` when the scan reports no overlap. -/
theorem phys_add_inr {b e : Nat} {rs res : List region}
    (h : addStep b e rs = .inr res) : phys_add b e rs = res := by
  unfold phys_add
  split
  · next pre x post heq =>
    rw [heq] at h
    cases h
  · next res2 heq =>
    rw [heq] at h
    injection h

/-- Unfolding `phys_add` when the scan finds an overlapping region: the
region is erased and the expanded range is re-added. -/
theorem phys_add_inl {b e : Nat} {rs pre post : List region} {x : region}
    (h : addStep b e rs = .inl (pre, x, post)) :
    phys_add b e rs = phys_add (min b x.base) (max e x.end_) (pre ++ post) := by
  rw [phys_add.eq_def]
  split
  · next pre' x' post' heq =>
    rw [heq] at h
    simp only [Sum.inl.injEq, Prod.mk.injEq] at h
    obtain ⟨h1, h2, h3⟩ := h
    subst h1; subst h2; subst h3
    rfl
  · next res2 heq =>
    rw [heq] at h
    cases h

/-- The scan of `addStep` passes over a prefix whose regions neither
overlap the range nor trigger the sorted-position break, and reports the
overlap it finds beyond the prefix. -/
theorem addStep_append_inl {b e : Nat} {p s : List region} {x : region}
    (pre rest : List region)
    (hskip : ∀ r ∈ pre, ¬(e ≥ r.base ∧ b ≤ r.end_) ∧ ¬(r.base ≥ b))
    (h : addStep b e rest = .inl (p, x, s)) :
    addStep b e (pre ++ rest) = .inl (pre ++ p, x, s) := by
  induction pre with
  | nil => simpa using h
  | cons r pre' ih =>
    have hr := hskip r (by simp)
    show addStep b e (r :: (pre' ++ rest)) = _
    unfold addStep
    rw [if_neg hr.1, if_neg hr.2,
      ih (fun q hq => hskip q (List.mem_cons_of_mem r hq))]
    rfl

/-- The scan of `addStep` passes over a prefix whose regions neither
overlap the range nor trigger the sorted-position break, and keeps the
prefix in front of the insertion it performs beyond it. -/
theorem addStep_append_inr {b e : Nat} {res : List region}
    (pre rest : List region)
    (hskip : ∀ r ∈ pre, ¬(e ≥ r.base ∧ b ≤ r.end_) ∧ ¬(r.base ≥ b))
    (h : addStep b e rest = .inr res) :
    addStep b e (pre ++ rest) = .inr (pre ++ res) := by
  induction pre with
  | nil => simpa using h
  | cons r pre' ih =>
    have hr := hskip r (by simp)
    show addStep b e (r :: (pre' ++ rest)) = _
    unfold addStep
    rw [if_neg hr.1, if_neg hr.2,
      ih (fun q hq => hskip q (List.mem_cons_of_mem r hq))]
    rfl

/-- When every remaining region lies strictly beyond `e`, the scan inserts
`[b, e)` in front of them. -/
theorem addStep_insert {b e : Nat} (post : List region) (hbe : b < e)
    (hpost : ∀ r ∈ post, e < r.base) :
    addStep b e post = .inr (⟨b, e⟩ :: post) := by
  cases post with
  | nil => rfl
  | cons r rest =>
    have hr := hpost r (by simp)
    unfold addStep
    rw [if_neg (by omega), if_pos (by omega)]

/-- `remove` leaves a strictly separated, proper prefix untouched and
recurses into the rest of the vector. -/
theorem remove_append {b e : Nat} (hbe : b ≤ e) (pre rest : List region)
    (hprop : ∀ r ∈ pre, r.base < r.end_)
    (hsep : ∀ r ∈ pre, e < r.base ∨ r.end_ < b) :
    phys_remove b e (pre ++ rest) = pre ++ phys_remove b e rest := by
  induction pre with
  | nil => rfl
  | cons r pre' ih =>
    have hr := hsep r (by simp)
    have hp := hprop r (by simp)
    have h1 : ¬(r.base < b ∧ e < r.end_) := by rcases hr with h | h <;> omega
    have h2 : ¬(b ≤ r.base ∧ r.end_ ≤ e) := by rcases hr with h | h <;> omega
    have h3 : ¬(b ≤ r.base ∧ e > r.base) := by rcases hr with h | h <;> omega
    have h4 : ¬(b < r.end_ ∧ e ≥ r.end_) := by rcases hr with h | h <;> omega
    show phys_remove b e (r :: (pre' ++ rest)) = _
    simp only [phys_remove]
    rw [if_neg h1, if_neg h2, if_neg h3, if_neg h4,
      ih (fun s hs => hprop s (List.mem_cons_of_mem r hs))
        (fun s hs => hsep s (List.mem_cons_of_mem r hs))]
    rfl

/-- `remove` splits a region that strictly contains `[b, e)`. -/
theorem remove_head_split {b e x y : Nat} (rest : List region)
    (h1 : x < b) (h2 : e < y) :
    phys_remove b e (⟨x, y⟩ :: rest) = ⟨x, b⟩ :: ⟨e, y⟩ :: phys_remove b e rest := by
  simp only [phys_remove]
  split
  · rfl
  · next h => exact absurd ⟨h1, h2⟩ h

/-- `remove` truncates on the right a region that reaches into `[b, e)`
from below. -/
theorem remove_head_right {b e x y : Nat} (rest : List region)
    (h1 : x < b) (h2 : b < y) (h3 : y ≤ e) :
    phys_remove b e (⟨x, y⟩ :: rest) = ⟨x, b⟩ :: phys_remove b e rest := by
  simp only [phys_remove]
  split
  · next h => exact absurd h.2 (by omega : ¬ e < y)
  · split
    · next h => exact absurd h.1 (by omega : ¬ b ≤ x)
    · split
      · next h => exact absurd h.1 (by omega : ¬ b ≤ x)
      · split
        · rfl
        · next h => exact absurd ⟨h2, h3⟩ h

/-- `remove` truncates on the left a region that starts inside `[b, e)`
and reaches beyond it. -/
theorem remove_head_left {b e x y : Nat} (rest : List region)
    (h1 : b ≤ x) (h2 : x < e) (h3 : e < y) :
    phys_remove b e (⟨x, y⟩ :: rest) = ⟨e, y⟩ :: phys_remove b e rest := by
  simp only [phys_remove]
  split
  · next h => exact absurd h.1 (by omega : ¬ x < b)
  · split
    · next h => exact absurd h.2 (by omega : ¬ y ≤ e)
    · split
      · rfl
      · next h => exact absurd ⟨h1, h2⟩ h

/-- `add(b, e)` followed by `remove(b, e)` restores the map whenever the
range shares no byte with any region (touching at an endpoint is allowed)
and a region touching the range is not itself touched by a further region
of the map.  `add` then merges at most the left-touching and the
right-touching neighbour, and `remove` cuts the merged region back into
exactly those neighbours. -/
theorem add_remove_touch {b e : Nat} {rs : List region} (hbe : b < e)
    (hinv : phys_map_inv rs)
    (hsep : ∀ r ∈ rs, e ≤ r.base ∨ r.end_ ≤ b)
    (hleft : ∀ l ∈ rs, l.end_ = b → ∀ p ∈ rs, p.end_ ≠ l.base)
    (hright : ∀ r ∈ rs, r.base = e → ∀ q ∈ rs, q.base ≠ r.end_) :
    phys_remove b e (phys_add b e rs) = rs := by
  obtain ⟨hpair, hprop⟩ := hinv
  by_cases hL : ∃ l ∈ rs, l.end_ = b
  · obtain ⟨l, hlm, hlb⟩ := hL
    obtain ⟨pre, rest, hdec⟩ := List.append_of_mem hlm
    subst hdec
    have hlprop : l.base < l.end_ := hprop l hlm
    have hlbb : l.base < b := by omega
    rw [List.pairwise_append] at hpair
    obtain ⟨hpairpre, hpairlrest, hcross⟩ := hpair
    have hlrest := List.pairwise_cons.mp hpairlrest
    have hpre_lt : ∀ p ∈ pre, p.end_ < l.base := by
      intro p hp
      have h1 : p.end_ ≤ l.base := hcross p hp l (by simp)
      have h2 : p.end_ ≠ l.base := hleft l hlm hlb p (List.mem_append.mpr (Or.inl hp))
      omega
    have hrest_ge : ∀ q ∈ rest, e ≤ q.base := by
      intro q hq
      have hq1 : q ∈ pre ++ l :: rest :=
        List.mem_append.mpr (Or.inr (List.mem_cons_of_mem l hq))
      have h1 : l.end_ ≤ q.base := hlrest.1 q hq
      have h2 := hsep q hq1
      have h3 : q.base < q.end_ := hprop q hq1
      omega
    have hskipbe : ∀ p ∈ pre, ¬(e ≥ p.base ∧ b ≤ p.end_) ∧ ¬(p.base ≥ b) := by
      intro p hp
      have h1 := hpre_lt p hp
      have h2 : p.base < p.end_ := hprop p (List.mem_append.mpr (Or.inl hp))
      exact ⟨fun hc => absurd hc.2 (by omega), by omega⟩
    have hskiple : ∀ p ∈ pre, ¬(e ≥ p.base ∧ l.base ≤ p.end_) ∧ ¬(p.base ≥ l.base) := by
      intro p hp
      have h1 := hpre_lt p hp
      have h2 : p.base < p.end_ := hprop p (List.mem_append.mpr (Or.inl hp))
      exact ⟨fun hc => absurd hc.2 (by omega), by omega⟩
    have hstep1 : addStep b e (pre ++ l :: rest) = .inl (pre ++ [], l, rest) := by
      refine addStep_append_inl pre (l :: rest) hskipbe ?_
      unfold addStep
      rw [if_pos ⟨by omega, by omega⟩]
    have hadd1 : phys_add b e (pre ++ l :: rest) =
        phys_add l.base e ((pre ++ []) ++ rest) := by
      rw [phys_add_inl hstep1, min_eq_right (by omega : l.base ≤ b),
        max_eq_left (by omega : l.end_ ≤ e)]
    rw [List.append_nil] at hadd1
    by_cases hR : ∃ r ∈ pre ++ l :: rest, r.base = e
    · -- the range touches a region on each side: bridging merge, then split
      obtain ⟨r, hrm, hrb⟩ := hR
      have hrprop : r.base < r.end_ := hprop r hrm
      have hrrest : r ∈ rest := by
        rcases List.mem_append.mp hrm with h | h
        · exfalso
          have := hpre_lt r h
          omega
        · rcases List.mem_cons.mp h with h | h
          · exfalso
            subst h
            omega
          · exact h
      obtain ⟨pre2, post, hdec2⟩ := List.append_of_mem hrrest
      have hpre2nil : pre2 = [] := by
        rw [List.eq_nil_iff_forall_not_mem]
        intro q hq
        have hq1 : q ∈ rest := by
          rw [hdec2]; exact List.mem_append.mpr (Or.inl hq)
        have h1 : e ≤ q.base := hrest_ge q hq1
        have h2 : q.base < q.end_ := hprop q
          (List.mem_append.mpr (Or.inr (List.mem_cons_of_mem l hq1)))
        have h3 : q.end_ ≤ r.base := by
          have hp2 := hlrest.2
          rw [hdec2, List.pairwise_append] at hp2
          exact hp2.2.2 q hq r (by simp)
        omega
      subst hpre2nil
      rw [List.nil_append] at hdec2
      subst hdec2
      have hpost_gt : ∀ q ∈ post, r.end_ < q.base := by
        intro q hq
        have h1 : r.end_ ≤ q.base := (List.pairwise_cons.mp hlrest.2).1 q hq
        have h2 : q.base ≠ r.end_ := hright r hrm hrb q
          (List.mem_append.mpr (Or.inr (List.mem_cons_of_mem l (List.mem_cons_of_mem r hq))))
        omega
      have hstep2 : addStep l.base e (pre ++ r :: post) = .inl (pre ++ [], r, post) := by
        refine addStep_append_inl pre (r :: post) hskiple ?_
        unfold addStep
        rw [if_pos ⟨by omega, by omega⟩]
      have hadd2 : phys_add l.base e (pre ++ r :: post) =
          phys_add l.base r.end_ ((pre ++ []) ++ post) := by
        rw [phys_add_inl hstep2, min_eq_left (by omega : l.base ≤ r.base),
          max_eq_right (by omega : e ≤ r.end_)]
      rw [List.append_nil] at hadd2
      have hskiplr : ∀ p ∈ pre,
          ¬(r.end_ ≥ p.base ∧ l.base ≤ p.end_) ∧ ¬(p.base ≥ l.base) := by
        intro p hp
        have h1 := hpre_lt p hp
        have h2 : p.base < p.end_ := hprop p (List.mem_append.mpr (Or.inl hp))
        exact ⟨fun hc => absurd hc.2 (by omega), by omega⟩
      have hstep3 : addStep l.base r.end_ (pre ++ post) =
          .inr (pre ++ ⟨l.base, r.end_⟩ :: post) := by
        refine addStep_append_inr pre post hskiplr ?_
        exact addStep_insert post (by omega) hpost_gt
      rw [hadd1, hadd2, phys_add_inr hstep3]
      rw [remove_append (Nat.le_of_lt hbe) pre _
        (fun p hp => hprop p (List.mem_append.mpr (Or.inl hp)))
        (fun p hp => Or.inr (by have := hpre_lt p hp; omega))]
      rw [remove_head_split post hlbb (by omega : e < r.end_)]
      rw [remove_noop (Nat.le_of_lt hbe)
        (fun q hq => hprop q (List.mem_append.mpr
          (Or.inr (List.mem_cons_of_mem l (List.mem_cons_of_mem r hq)))))
        (fun q hq => Or.inl (by have := hpost_gt q hq; omega))]
      rw [← hlb, ← hrb]
    · -- the range touches a region only on its left: merge, right truncate
      have hrest_gt : ∀ q ∈ rest, e < q.base := by
        intro q hq
        have h1 := hrest_ge q hq
        have h2 : q.base ≠ e := fun hc =>
          hR ⟨q, List.mem_append.mpr (Or.inr (List.mem_cons_of_mem l hq)), hc⟩
        omega
      have hstep2 : addStep l.base e (pre ++ rest) =
          .inr (pre ++ ⟨l.base, e⟩ :: rest) := by
        refine addStep_append_inr pre rest hskiple ?_
        exact addStep_insert rest (by omega) hrest_gt
      rw [hadd1, phys_add_inr hstep2]
      rw [remove_append (Nat.le_of_lt hbe) pre _
        (fun p hp => hprop p (List.mem_append.mpr (Or.inl hp)))
        (fun p hp => Or.inr (by have := hpre_lt p hp; omega))]
      rw [remove_head_right rest hlbb hbe (le_refl e)]
      rw [remove_noop (Nat.le_of_lt hbe)
        (fun q hq => hprop q (List.mem_append.mpr
          (Or.inr (List.mem_cons_of_mem l hq))))
        (fun q hq => Or.inl (hrest_gt q hq))]
      rw [← hlb]
  · by_cases hR : ∃ r ∈ rs, r.base = e
    · -- the range touches a region only on its right: merge, left truncate
      obtain ⟨r, hrm, hrb⟩ := hR
      obtain ⟨pre, post, hdec⟩ := List.append_of_mem hrm
      subst hdec
      have hrprop : r.base < r.end_ := hprop r hrm
      rw [List.pairwise_append] at hpair
      obtain ⟨hpairpre, hpairrpost, hcross⟩ := hpair
      have hpre_lt : ∀ p ∈ pre, p.end_ < b := by
        intro p hp
        have hp1 : p ∈ pre ++ r :: post := List.mem_append.mpr (Or.inl hp)
        have h1 := hsep p hp1
        have h2 : p.base < p.end_ := hprop p hp1
        have h3 : p.end_ ≤ r.base := hcross p hp r (by simp)
        have h4 : p.end_ ≠ b := fun hc => hL ⟨p, hp1, hc⟩
        omega
      have hpost_gt : ∀ q ∈ post, r.end_ < q.base := by
        intro q hq
        have h1 : r.end_ ≤ q.base := (List.pairwise_cons.mp hpairrpost).1 q hq
        have h2 : q.base ≠ r.end_ := hright r hrm hrb q
          (List.mem_append.mpr (Or.inr (List.mem_cons_of_mem r hq)))
        omega
      have hskipbe : ∀ p ∈ pre, ¬(e ≥ p.base ∧ b ≤ p.end_) ∧ ¬(p.base ≥ b) := by
        intro p hp
        have h1 := hpre_lt p hp
        have h2 : p.base < p.end_ := hprop p (List.mem_append.mpr (Or.inl hp))
        exact ⟨fun hc => absurd hc.2 (by omega), by omega⟩
      have hstep1 : addStep b e (pre ++ r :: post) = .inl (pre ++ [], r, post) := by
        refine addStep_append_inl pre (r :: post) hskipbe ?_
        unfold addStep
        rw [if_pos ⟨by omega, by omega⟩]
      have hadd1 : phys_add b e (pre ++ r :: post) =
          phys_add b r.end_ ((pre ++ []) ++ post) := by
        rw [phys_add_inl hstep1, min_eq_left (by omega : b ≤ r.base),
          max_eq_right (by omega : e ≤ r.end_)]
      rw [List.append_nil] at hadd1
      have hskipb : ∀ p ∈ pre, ¬(r.end_ ≥ p.base ∧ b ≤ p.end_) ∧ ¬(p.base ≥ b) := by
        intro p hp
        have h1 := hpre_lt p hp
        have h2 : p.base < p.end_ := hprop p (List.mem_append.mpr (Or.inl hp))
        exact ⟨fun hc => absurd hc.2 (by omega), by omega⟩
      have hstep2 : addStep b r.end_ (pre ++ post) =
          .inr (pre ++ ⟨b, r.end_⟩ :: post) := by
        refine addStep_append_inr pre post hskipb ?_
        exact addStep_insert post (by omega) hpost_gt
      rw [hadd1, phys_add_inr hstep2]
      rw [remove_append (Nat.le_of_lt hbe) pre _
        (fun p hp => hprop p (List.mem_append.mpr (Or.inl hp)))
        (fun p hp => Or.inr (hpre_lt p hp))]
      rw [remove_head_left post (le_refl b) hbe (by omega : e < r.end_)]
      rw [remove_noop (Nat.le_of_lt hbe)
        (fun q hq => hprop q (List.mem_append.mpr
          (Or.inr (List.mem_cons_of_mem r hq))))
        (fun q hq => Or.inl (by have := hpost_gt q hq; omega))]
      rw [← hrb]
    · -- strictly separated on both sides: plain insert and exact removal
      have hsep' : ∀ r ∈ rs, e < r.base ∨ r.end_ < b := by
        intro r hr
        rcases hsep r hr with h | h
        · exact Or.inl (lt_of_le_of_ne h (fun hc => hR ⟨r, hr, hc.symm⟩))
        · exact Or.inr (lt_of_le_of_ne h (fun hc => hL ⟨r, hr, hc⟩))
      obtain ⟨res, hstep, hrem⟩ := addsep hbe ⟨hpair, hprop⟩ hsep'
      rw [phys_add_inr hstep, hrem]

/-- Adding a range that touches a chain of mutually touching regions
merges the whole chain, and the matching `remove` restores only the
outermost cut: the no-chain hypothesis of `add_remove_touch` cannot be
dropped. -/
theorem add_remove_chain :
    phys_remove 3 4 (phys_add 3 4 [⟨0, 1⟩, ⟨1, 2⟩, ⟨2, 3⟩]) = [⟨0, 3⟩] ∧
      [region.mk 0 3] ≠ [region.mk 0 1, region.mk 1 2, region.mk 2 3] := by
  constructor
  · simp [phys_add, addStep]
    decide
  · decide

/-- Claim C1 counterexample: the degenerate operation `add(5, 5)` is
accepted by the code and inserts the empty region `[5, 5)`, which violates
the claimed `base < end` property. -/
theorem C1_counterexample :
    apply_ops [] [phys_op.add 5 5] = [⟨5, 5⟩] ∧
      ¬ ∀ r ∈ apply_ops [] [phys_op.add 5 5], r.base < r.end_ := by
  have h : apply_ops [] [phys_op.add 5 5] = [⟨5, 5⟩] := by
    simp [apply_ops, apply_op, phys_add, addStep]
  refine ⟨h, ?_⟩
  rw [h]
  intro hall
  exact absurd (hall ⟨5, 5⟩ (by simp)) (by simp)

/-- Claim C1 (amended): for every sequence of `phys_map` operations with
well-formed arguments (`base < end` for `add`, `base ≤ end` for `remove`,
and a well-formed bounded map for `intersect`), the resulting region
vector is sorted by base, pairwise disjoint, and every region satisfies
`base < end`. -/
theorem C1_ops_preserve_invariant (ops : List phys_op)
    (hval : ∀ op ∈ ops, op_valid op) :
    sortedByBase (apply_ops [] ops) ∧ pairwiseDisjoint (apply_ops [] ops) ∧
      ∀ r ∈ apply_ops [] ops, r.base < r.end_ :=
  phys_map_inv_spec (apply_ops_inv ops [] ⟨List.Pairwise.nil, by simp⟩ hval)

theorem C1_ops_preserve_invariant_witness :
    sortedByBase (apply_ops [] [phys_op.add 100 200, phys_op.remove 120 150,
        phys_op.intersect [⟨0, 130⟩]]) ∧
      pairwiseDisjoint (apply_ops [] [phys_op.add 100 200,
        phys_op.remove 120 150, phys_op.intersect [⟨0, 130⟩]]) ∧
      ∀ r ∈ apply_ops [] [phys_op.add 100 200, phys_op.remove 120 150,
        phys_op.intersect [⟨0, 130⟩]], r.base < r.end_ :=
  C1_ops_preserve_invariant _ (by decide)

/-- Claim C5 counterexample: adding `[5, 6)` to the map `{[0, 10)}` merges
into the existing region, and the subsequent `remove(5, 6)` splits it,
leaving `{[0, 5), [6, 10)}` rather than the original map. -/
theorem C5_counterexample :
    phys_remove 5 6 (phys_add 5 6 [⟨0, 10⟩]) = [⟨0, 5⟩, ⟨6, 10⟩] ∧
      [region.mk 0 5, region.mk 6 10] ≠ [region.mk 0 10] := by
  constructor
  · rw [show phys_add 5 6 [⟨0, 10⟩] = [⟨0, 10⟩] by simp [phys_add, addStep]]
    decide
  · decide

/-- Claim C5 (amended): `add(base, end)` followed by `remove(base, end)`
restores the map whenever the added range shares no byte with any existing
region — touching a region at an endpoint is allowed — and a region
touching the range is not itself touched by a further region of the map.
(A range overlapping a region is merged by `add` and then truncated or
split by `remove`; a range touching a chain of mutually touching regions
has the whole chain absorbed by the cascading merge, so only the outermost
cut is restored.) -/
theorem C5_add_remove_id (b e : Nat) (rs : List region) (hbe : b < e)
    (hinv : phys_map_inv rs)
    (hsep : ∀ r ∈ rs, e ≤ r.base ∨ r.end_ ≤ b)
    (hleft : ∀ l ∈ rs, l.end_ = b → ∀ p ∈ rs, p.end_ ≠ l.base)
    (hright : ∀ r ∈ rs, r.base = e → ∀ q ∈ rs, q.base ≠ r.end_) :
    phys_remove b e (phys_add b e rs) = rs :=
  add_remove_touch hbe hinv hsep hleft hright

theorem C5_add_remove_id_witness :
    phys_remove 10 20 (phys_add 10 20 [⟨0, 10⟩, ⟨20, 30⟩]) =
      [⟨0, 10⟩, ⟨20, 30⟩] :=
  C5_add_remove_id 10 20 [⟨0, 10⟩, ⟨20, 30⟩] (by decide) (by decide)
    (by decide) (by decide) (by decide)

/-- `steal_order::segment`: steal from buddies `[low, high)` (named
`steal_segment` here because Mathlib already defines `segment`). -/
structure steal_segment where
  low : Nat
  high : Nat
deriving Repr, DecidableEq

/-- The tail of `steal_order::add` after the subtraction scan: drop an
empty range, else try to merge with the last segment (only when it is not
the local one, i.e. more than one segment exists), else push. -/
def stealFinish (segs : List steal_segment) (low high : Nat) : List steal_segment :=
  if low ≥ high then segs
  else if 1 < segs.length then
    match segs.getLast? with
    | some b =>
      if b.high = low then segs.dropLast ++ [⟨b.low, high⟩]
      else if high = b.low then segs.dropLast ++ [⟨low, b.high⟩]
      else segs ++ [⟨low, high⟩]
    | none => segs ++ [⟨low, high⟩]
  else segs ++ [⟨low, high⟩]

mutual
/-- `steal_order::add(low, high)` with an explicit recursion fuel; the C
recursion terminates on states whose segments are proper, and
`high - low + 1` fuel suffices there.  Fuel exhaustion returns the state
unchanged (unreachable with the wrapper's fuel). -/
def stealAdd : Nat → List steal_segment → Nat → Nat → List steal_segment
  | 0, segs, _, _ => segs
  | fuel + 1, segs, low, high => stealAddLoop fuel segs segs.length 0 low high
termination_by fuel _ _ _ => (fuel, 0)

/-- The subtraction scan of `steal_order::add`: iterate by index over the
snapshot of `n` segments taken when the loop started (the recursive call
in the split case appends to the vector, and its merges may rewrite the
segment the scan is standing on, so `seg.low` is re-read afterwards as in
the C code). -/
def stealAddLoop : Nat → List steal_segment → Nat → Nat → Nat → Nat → List steal_segment
  | fuel, segs, n, i, low, high =>
    if h : i < n then
      match segs[i]? with
      | none => segs
      | some seg =>
        if low = seg.low ∧ high = seg.high then segs
        else if low < seg.low ∧ high > seg.high then
          -- Split in two.  Do the upper half first.
          stealAddLoop fuel (stealAdd fuel segs seg.high high) n (i + 1) low
            (match (stealAdd fuel segs seg.high high)[i]? with
              | none => seg.low
              | some seg2 => seg2.low)
        else if low < seg.low ∧ high > seg.low then
          -- Straddles low boundary
          stealAddLoop fuel segs n (i + 1) low seg.low
        else if low < seg.high ∧ high > seg.high then
          -- Straddles high boundary
          stealAddLoop fuel segs n (i + 1) seg.high high
        else
          stealAddLoop fuel segs n (i + 1) low high
    else stealFinish segs low high
termination_by fuel _ n i _ _ => (fuel, n - i + 1)
decreasing_by
  all_goals first
    | exact Prod.Lex.left _ _ (by omega)
    | exact Prod.Lex.right _ (by omega)
end

/-- `steal_order::add` as called by the kernel (sufficient fuel for any
proper state). -/
def steal_order_add (segs : List steal_segment) (low high : Nat) : List steal_segment :=
  stealAdd (high - low + 1) segs low high

/-- The sequence of buddy indexes produced by `steal_order::iterator`:
`low, low+1, ..., high-1` for each segment in order. -/
def stealIter (segs : List steal_segment) : List Nat :=
  segs.flatMap (fun s => List.range' s.low (s.high - s.low))

/-- `steal_order::get_local()`: the front segment. -/
def get_local (segs : List steal_segment) : Option steal_segment := segs.head?

/-- Claim C3, evaluated at the failing input: after `add(0, 10)` followed
by `add(2, 5)`, the second range — although fully contained in the first
segment — is pushed again (none of the subtraction cases of
`steal_order::add` matches a range strictly inside an existing segment),
and iteration then yields buddy index 2 twice, contradicting the claimed
at-most-once property (and the function's own comment that it subtracts
ranges already added).  The first segment is still the local range. -/
theorem C3_duplicate_index :
    steal_order_add (steal_order_add [] 0 10) 2 5 = [⟨0, 10⟩, ⟨2, 5⟩] ∧
      (stealIter [⟨0, 10⟩, ⟨2, 5⟩]).count 2 = 2 ∧
      get_local [⟨0, 10⟩, ⟨2, 5⟩] = some ⟨0, 10⟩ := by
  refine ⟨?_, by decide, by decide⟩
  have h1 : steal_order_add [] 0 10 = [⟨0, 10⟩] := by
    simp [steal_order_add, stealAdd, stealAddLoop, stealFinish]
  rw [h1]
  simp [steal_order_add, stealAdd, stealAddLoop, stealFinish]

/-- Claim C6: `intersect(other)` retains exactly the bytes present in both
maps (for a well-formed `other` and maps within the `uintptr_t` range);
in particular `{[0,100), [200,300)}` intersected with `{[50,250)}` yields
`{[50,100), [200,250)}`. -/
theorem C6_intersect :
    (∀ (rs o : List region) (x : Nat), phys_map_inv o →
      (∀ r ∈ o, r.end_ ≤ UINTPTR_MAX) → (∀ r ∈ rs, r.end_ ≤ UINTPTR_MAX) →
      (regMem x (phys_intersect rs o) ↔ regMem x rs ∧ regMem x o)) ∧
    phys_intersect [⟨0, 100⟩, ⟨200, 300⟩] [⟨50, 250⟩] =
      [⟨50, 100⟩, ⟨200, 250⟩] := by
  refine ⟨mem_intersect, ?_⟩
  decide

theorem C6_intersect_witness :
    regMem 75 (phys_intersect [⟨0, 100⟩, ⟨200, 300⟩] [⟨50, 250⟩]) ↔
      regMem 75 [region.mk 0 100, region.mk 200 300] ∧
        regMem 75 [region.mk 50 250] :=
  C6_intersect.1 [⟨0, 100⟩, ⟨200, 300⟩] [⟨50, 250⟩] 75 (by decide) (by decide)
    (by decide)

/-- Modelled from the spec: the `buddy_allocator` state (buddy.cc and
buddy.hh are not part of this repository; spec section 4.2).  The window
`[wbase, wend)` is the reservation window; `free` holds the free page
addresses currently on the free lists (block structure is not observable
at the granularity the kalloc.cc claims need). -/
structure buddy where
  wbase : Nat
  wend : Nat
  free : List Nat
deriving Repr, DecidableEq

/-- Modelled from the spec: `buddy_allocator::contains(ptr)` is true iff
`ptr` lies within the window. -/
def buddy.contains (b : buddy) (p : Nat) : Bool :=
  decide (b.wbase ≤ p ∧ p < b.wend)

/-- Modelled from the spec: `buddy_allocator::alloc_nothrow(size)` fails
for sizes above `MAX_SIZE` and otherwise pops a free block, which always
lies inside the window. -/
def buddy.alloc_nothrow (maxsz size : Nat) (b : buddy) : Option (Nat × buddy) :=
  if maxsz < size then none
  else
    match b.free with
    | [] => none
    | p :: ps => some (p, ⟨b.wbase, b.wend, ps⟩)

/-- Modelled from the spec: `buddy_allocator::free(ptr, size)` returns the
block to the free lists. -/
def buddy.free_blk (b : buddy) (p : Nat) : buddy := ⟨b.wbase, b.wend, p :: b.free⟩

/-- The state the kalloc.cc claims refer to: the buddy vector and this
CPU's hot-page cache (`cpu_mem::hot_pages[0..nhot)` in array order, so a
push appends and a pop takes the last element). -/
structure kmem where
  buddies : List buddy
  hot : List Nat
deriving Repr, DecidableEq

/-- Find the first buddy in steal order whose window contains `p`
(`for (auto buddyidx : mem->steal) if (buddies[buddyidx].alloc.contains(ptr))`). -/
def findSteal (steal : List Nat) (bs : List buddy) (p : Nat) : Option Nat :=
  steal.find? (fun i =>
    match bs[i]? with
    | some b => b.contains p
    | none => false)

/-- The lock-reuse test of the hot-list flush: `!lb || !lb->alloc.contains(ptr)`
negated — keep the buddy locked for the previous pointer while its window
still contains the current one. -/
def flushReuse (bs : List buddy) (lb : Option Nat) (ptr : Nat) : Bool :=
  match lb with
  | some i =>
    match bs[i]? with
    | some b => b.contains ptr
    | none => false
  | none => false

/-- One pointer of the hot-list flush in `kfree`: reuse the held buddy or
find the first containing buddy in steal order; `assert(lb)` failing is
`none`. -/
def flushStep (steal : List Nat) (st : List buddy × Option Nat) (ptr : Nat) :
    Option (List buddy × Option Nat) :=
  match (if flushReuse st.1 st.2 ptr then st.2 else findSteal steal st.1 ptr) with
  | none => none
  | some i =>
    match st.1[i]? with
    | some b => some (st.1.set i (b.free_blk ptr), some i)
    | none => none

/-- `kfree(v, size)` (the non-load-balancing variant): a page-sized free
goes to the hot cache, first flushing the sorted lower half of a full
cache to the buddies; any other size goes to the first buddy in steal
order whose window contains the pointer, and panics (`none`) when none
does.  `std::sort` over the lower half is modelled by `insertionSort`. -/
def kfree_model (H PGSIZE : Nat) (steal : List Nat) (st : kmem)
    (v size : Nat) : Option kmem :=
  if size = PGSIZE then
    if st.hot.length = H then
      match (List.insertionSort (· ≤ ·) (st.hot.take (H / 2))).foldlM
          (flushStep steal) (st.buddies, none) with
      | none => none
      | some (bs2, _) => some ⟨bs2, st.hot.drop (H / 2) ++ [v]⟩
    else some ⟨st.buddies, st.hot ++ [v]⟩
  else
    match findSteal steal st.buddies v with
    | none => none
    | some i =>
      match st.buddies[i]? with
      | some b => some ⟨st.buddies.set i (b.free_blk v), st.hot⟩
      | none => none

/-- The hot-list refill loop of `kalloc` for a page-sized request with an
empty cache: walk the steal order, repeatedly allocating single pages from
the current buddy until the cache holds `H/2` pages or the buddy is
empty; if the whole order is exhausted without a single page, fall through
to the general path (`.inr`). -/
def refillGo (H PGSIZE maxsz : Nat) :
    List buddy → List Nat → List Nat → (List buddy × List Nat) ⊕ (List buddy)
  | bs, [], hot => if hot.length = 0 then .inr bs else .inl (bs, hot)
  | bs, idx :: rest, hot =>
    if hlen : hot.length < H / 2 then
      match bs[idx]? with
      | none => refillGo H PGSIZE maxsz bs rest hot
      | some b =>
        match b.alloc_nothrow maxsz PGSIZE with
        | none => refillGo H PGSIZE maxsz bs rest hot
        | some (p, b2) =>
          refillGo H PGSIZE maxsz (bs.set idx b2) (idx :: rest) (hot ++ [p])
    else .inl (bs, hot)
termination_by bs steal hot => (H / 2 - hot.length, steal.length)
decreasing_by
  all_goals simp
  all_goals first
    | exact Prod.Lex.right _ (by omega)
    | exact Prod.Lex.left _ _ (by omega)

/-- The general allocation path of `kalloc`: walk the steal order, taking
each buddy's lock (recorded in order in the third component) and asking it
for the block; stop at the first success. -/
def kallocGeneral (maxsz size : Nat) :
    List buddy → List Nat → List Nat → Option Nat × List buddy × List Nat
  | bs, [], locks => (none, bs, locks)
  | bs, idx :: rest, locks =>
    match bs[idx]? with
    | none => kallocGeneral maxsz size bs rest (locks ++ [idx])
    | some b =>
      match b.alloc_nothrow maxsz size with
      | some (p, b2) => (some p, bs.set idx b2, locks ++ [idx])
      | none => kallocGeneral maxsz size bs rest (locks ++ [idx])

/-- `kalloc(name, size)` after boot (the non-load-balancing variant): the
page-sized hot path pops from the cache, refilling it from the steal
order when empty; other sizes (or a completely failed refill) take the
general path.  The third component records the buddy locks taken on the
general path (the claims only concern those). -/
def kalloc_model (H PGSIZE maxsz : Nat) (steal : List Nat) (st : kmem)
    (size : Nat) : Option Nat × kmem × List Nat :=
  if size = PGSIZE then
    if st.hot.length = 0 then
      match refillGo H PGSIZE maxsz st.buddies steal [] with
      | .inl (bs2, hot2) =>
        match hot2.getLast? with
        | some p => (some p, ⟨bs2, hot2.dropLast⟩, [])
        | none => (none, ⟨bs2, hot2⟩, [])
      | .inr bs2 =>
        match kallocGeneral maxsz size bs2 steal [] with
        | (res, bs3, locks) => (res, ⟨bs3, st.hot⟩, locks)
    else
      match st.hot.getLast? with
      | some p => (some p, ⟨st.buddies, st.hot.dropLast⟩, [])
      | none => (none, st, [])
  else
    match kallocGeneral maxsz size st.buddies steal [] with
    | (res, bs3, locks) => (res, ⟨bs3, st.hot⟩, locks)

/-- The reservation windows of the buddy vector; buddy operations never
change them. -/
def windows (bs : List buddy) : List (Nat × Nat) :=
  bs.map (fun b => (b.wbase, b.wend))

/-- Total number of free blocks held by the buddies. -/
def totalFree (bs : List buddy) : Nat :=
  (bs.map (fun b => b.free.length)).sum

/-- Spec section 8's per-buddy well-formedness: every free block is
page-aligned and lies in the window. -/
def buddyWF (PGSIZE : Nat) (b : buddy) : Prop :=
  ∀ p ∈ b.free, PGSIZE ∣ p ∧ b.wbase ≤ p ∧ p < b.wend

/-- Claim C9's invariant: `0 ≤ nhot ≤ HOT_MAX`, every cached pointer is
page-aligned and inside some buddy window, and the buddies are
well-formed. -/
def kmemWF (H PGSIZE : Nat) (st : kmem) : Prop :=
  st.hot.length ≤ H ∧
    (∀ p ∈ st.hot, PGSIZE ∣ p ∧ ∃ b ∈ st.buddies, b.contains p = true) ∧
    ∀ b ∈ st.buddies, buddyWF PGSIZE b

theorem kallocGeneral_oversized {maxsz size : Nat} (hsz : maxsz < size) :
    ∀ (steal : List Nat) (bs : List buddy) (locks : List Nat),
    kallocGeneral maxsz size bs steal locks = (none, bs, locks ++ steal) := by
  intro steal
  induction steal with
  | nil => intro bs locks; simp [kallocGeneral]
  | cons idx rest ih =>
    intro bs locks
    unfold kallocGeneral
    have hnone : ∀ b : buddy, b.alloc_nothrow maxsz size = none := by
      intro b
      unfold buddy.alloc_nothrow
      rw [if_pos hsz]
    cases hb : bs[idx]? with
    | none => simp [ih bs (locks ++ [idx])]
    | some b => simp [hnone b, ih bs (locks ++ [idx])]

/-- Claim C7 counterexample: an oversized request walks the general path,
taking (and releasing) the lock of every buddy in steal order while each
`alloc_nothrow` fails; the claim's "without acquiring any buddy lock" is
wrong.  Here one buddy exists and its lock (index 0) is acquired. -/
theorem C7_counterexample :
    kalloc_model 4 4096 16384 [0] ⟨[⟨0, 100000, []⟩], []⟩ 16385 =
      (none, ⟨[⟨0, 100000, []⟩], []⟩, [0]) ∧ ([0] : List Nat) ≠ [] := by
  decide

/-- Claim C7 (amended): for every requested size larger than
`BUDDY_MAX_SIZE`, `kalloc` returns null — but only after probing every
buddy in the CPU's steal order under that buddy's lock (the lock list of
the result records them in order); the buddies are left unchanged. -/
theorem C7_oversized_null (H PGSIZE maxsz : Nat) (steal : List Nat)
    (st : kmem) (size : Nat) (hsz : maxsz < size) (hpg : PGSIZE ≤ maxsz) :
    kalloc_model H PGSIZE maxsz steal st size = (none, st, steal) := by
  have hne : size ≠ PGSIZE := by omega
  unfold kalloc_model
  rw [if_neg hne, kallocGeneral_oversized hsz steal st.buddies []]
  simp

theorem C7_oversized_null_witness :
    kalloc_model 8 4096 16384 [0, 1] ⟨[⟨0, 100000, [4096]⟩, ⟨100000, 200000, []⟩], [8192]⟩ 90000 =
      (none, ⟨[⟨0, 100000, [4096]⟩, ⟨100000, 200000, []⟩], [8192]⟩, [0, 1]) :=
  C7_oversized_null 8 4096 16384 [0, 1]
    ⟨[⟨0, 100000, [4096]⟩, ⟨100000, 200000, []⟩], [8192]⟩ 90000
    (by decide) (by decide)

theorem findSteal_none_of {bs : List buddy} {v : Nat}
    (hnc : ∀ b ∈ bs, ¬ b.contains v = true) (steal : List Nat) :
    findSteal steal bs v = none := by
  apply List.find?_eq_none.mpr
  intro i hi
  cases hb : bs[i]? with
  | none => simp [hb]
  | some b =>
    have h := hnc b (List.getElem?_mem hb)
    rw [Bool.not_eq_true] at h
    simp [hb, h]

/-- Claim C8 counterexample: a page-sized free of a pointer contained in
no buddy window does not panic — it is pushed onto the hot cache without
any window check (the assert only fires later, when a flush tries to find
a buddy for it). -/
theorem C8_counterexample :
    kfree_model 4 4096 [] ⟨[], []⟩ 4096 4096 = some ⟨[], [4096]⟩ ∧
      ∀ b ∈ ([] : List buddy), ¬ b.contains 4096 = true := by
  decide

/-- Claim C8 (amended): for every size other than `PAGE_SIZE`, freeing a
pointer that no buddy window contains is a fatal panic; a page-sized free
of such a pointer is deferred to the hot cache instead, and the panic
(`assert(lb)`) only fires during a later flush. -/
theorem C8_unknown_pointer_panics (H PGSIZE : Nat) (steal : List Nat)
    (st : kmem) (v size : Nat) (hsz : size ≠ PGSIZE)
    (hnc : ∀ b ∈ st.buddies, ¬ b.contains v = true) :
    kfree_model H PGSIZE steal st v size = none := by
  unfold kfree_model
  rw [if_neg hsz, findSteal_none_of hnc steal]

theorem C8_unknown_pointer_panics_witness :
    kfree_model 4 4096 [0] ⟨[⟨0, 100000, []⟩], []⟩ 500000 8192 = none :=
  C8_unknown_pointer_panics 4 4096 [0] ⟨[⟨0, 100000, []⟩], []⟩ 500000 8192
    (by decide) (by decide)

theorem contains_iff_windows (bs : List buddy) (p : Nat) :
    (∃ b ∈ bs, b.contains p = true) ↔
      ∃ w ∈ windows bs, w.1 ≤ p ∧ p < w.2 := by
  unfold windows
  constructor
  · rintro ⟨b, hb, hc⟩
    rw [buddy.contains, decide_eq_true_eq] at hc
    exact ⟨(b.wbase, b.wend), List.mem_map_of_mem _ hb, hc.1, hc.2⟩
  · rintro ⟨w, hw, h1, h2⟩
    obtain ⟨b, hb, rfl⟩ := List.mem_map.mp hw
    exact ⟨b, hb, by rw [buddy.contains, decide_eq_true_eq]; exact ⟨h1, h2⟩⟩

theorem windows_set {bs : List buddy} {i : Nat} {b : buddy} (b2 : buddy)
    (hb : bs[i]? = some b) (h1 : b2.wbase = b.wbase) (h2 : b2.wend = b.wend) :
    windows (bs.set i b2) = windows bs := by
  induction bs generalizing i with
  | nil => simp at hb
  | cons x rest ih =>
    cases i with
    | zero =>
      simp at hb
      subst hb
      simp [windows, h1, h2]
    | succ j =>
      simp at hb
      have := ih hb
      simp [windows] at this
      simp [windows, this]

theorem totalFree_set {bs : List buddy} {i : Nat} {b : buddy}
    (hb : bs[i]? = some b) (p : Nat) :
    totalFree (bs.set i (b.free_blk p)) = totalFree bs + 1 := by
  induction bs generalizing i with
  | nil => simp at hb
  | cons x rest ih =>
    cases i with
    | zero =>
      simp at hb
      subst hb
      simp [totalFree, buddy.free_blk]
      omega
    | succ j =>
      simp at hb
      have := ih hb
      simp [totalFree, buddy.free_blk] at this
      simp [totalFree, buddy.free_blk]
      omega

theorem buddyWF_free_blk {PGSIZE : Nat} {b : buddy} {p : Nat}
    (hwf : buddyWF PGSIZE b) (hdvd : PGSIZE ∣ p)
    (hc : b.contains p = true) : buddyWF PGSIZE (b.free_blk p) := by
  rw [buddy.contains, decide_eq_true_eq] at hc
  intro q hq
  rcases List.mem_cons.mp hq with h | h
  · subst h
    exact ⟨hdvd, hc.1, hc.2⟩
  · exact hwf q h

theorem buddiesWF_set {PGSIZE : Nat} {bs : List buddy} {i : Nat} {b2 : buddy}
    (hwf : ∀ x ∈ bs, buddyWF PGSIZE x) (h2 : buddyWF PGSIZE b2) :
    ∀ x ∈ bs.set i b2, buddyWF PGSIZE x := by
  intro x hx
  rcases List.mem_or_eq_of_mem_set hx with h | h
  · exact hwf x h
  · subst h; exact h2

theorem findSteal_congr {bs bs2 : List buddy} (hw : windows bs = windows bs2)
    (steal : List Nat) (p : Nat) :
    findSteal steal bs p = findSteal steal bs2 p := by
  unfold findSteal
  congr 1
  funext i
  have h : bs[i]?.map (fun b => (b.wbase, b.wend)) =
      bs2[i]?.map (fun b => (b.wbase, b.wend)) := by
    have e1 := List.getElem?_map (fun b : buddy => (b.wbase, b.wend)) bs i
    have e2 := List.getElem?_map (fun b : buddy => (b.wbase, b.wend)) bs2 i
    rw [← e1, ← e2]
    unfold windows at hw
    rw [hw]
  cases hb : bs[i]? with
  | none =>
    cases hb2 : bs2[i]? with
    | none => rfl
    | some c => rw [hb, hb2] at h; simp at h
  | some b =>
    cases hb2 : bs2[i]? with
    | none => rw [hb, hb2] at h; simp at h
    | some c =>
      rw [hb, hb2] at h
      simp at h
      simp [buddy.contains, h.1, h.2]

theorem findSteal_some {steal : List Nat} {bs : List buddy} {p : Nat} {i : Nat}
    (h : findSteal steal bs p = some i) :
    ∃ b, bs[i]? = some b ∧ b.contains p = true := by
  have hp := List.find?_some h
  cases hb : bs[i]? with
  | none => rw [hb] at hp; simp at hp
  | some b =>
    rw [hb] at hp
    exact ⟨b, rfl, hp⟩

theorem flushStep_some {steal : List Nat} {bs : List buddy} {lb : Option Nat}
    {ptr : Nat} {bs' : List buddy} {lb' : Option Nat}
    (h : flushStep steal (bs, lb) ptr = some (bs', lb')) :
    ∃ i b, bs[i]? = some b ∧ b.contains ptr = true ∧
      bs' = bs.set i (b.free_blk ptr) ∧ lb' = some i := by
  unfold flushStep at h
  cases htgt : (if flushReuse (bs, lb).1 (bs, lb).2 ptr then (bs, lb).2
      else findSteal steal (bs, lb).1 ptr) with
  | none => simp only [htgt] at h; cases h
  | some i =>
    simp only [htgt] at h
    cases hb : bs[i]? with
    | none => simp only [hb] at h; cases h
    | some b =>
      simp only [hb, Option.some.injEq, Prod.mk.injEq] at h
      refine ⟨i, b, hb, ?_, h.1.symm, h.2.symm⟩
      by_cases hr : flushReuse bs lb ptr = true
      · rw [if_pos hr] at htgt
        simp only at htgt
        subst htgt
        unfold flushReuse at hr
        simp only [hb] at hr
        exact hr
      · rw [if_neg hr] at htgt
        obtain ⟨b2, hb2, hc2⟩ := findSteal_some htgt
        rw [hb2] at hb
        cases hb
        exact hc2

theorem flushStep_run {steal : List Nat} (bs : List buddy) (lb : Option Nat)
    (ptr : Nat) (hfind : (findSteal steal bs ptr).isSome = true) :
    ∃ bs' lb', flushStep steal (bs, lb) ptr = some (bs', lb') := by
  unfold flushStep
  by_cases hr : flushReuse bs lb ptr = true
  · rw [if_pos hr]
    unfold flushReuse at hr
    cases lb with
    | none => simp at hr
    | some j =>
      cases hbj : bs[j]? with
      | none => simp [hbj] at hr
      | some b =>
        exact ⟨bs.set j (b.free_blk ptr), some j, by simp only [hbj]⟩
  · rw [if_neg hr]
    obtain ⟨i, hi⟩ := Option.isSome_iff_exists.mp hfind
    obtain ⟨b, hb, hc⟩ := findSteal_some hi
    exact ⟨bs.set i (b.free_blk ptr), some i, by simp only [hi, hb]⟩

theorem flushFold_run {steal : List Nat} {bs0 : List buddy} (l : List Nat) :
    ∀ (bs : List buddy) (lb : Option Nat),
    windows bs = windows bs0 →
    (∀ p ∈ l, (findSteal steal bs0 p).isSome = true) →
    ∃ bs2 lb2, l.foldlM (flushStep steal) (bs, lb) = some (bs2, lb2) ∧
      windows bs2 = windows bs0 ∧ totalFree bs2 = totalFree bs + l.length := by
  induction l with
  | nil =>
    intro bs lb hw _
    exact ⟨bs, lb, rfl, hw, rfl⟩
  | cons p rest ih =>
    intro bs lb hw hfind
    have hfp : (findSteal steal bs p).isSome = true := by
      rw [findSteal_congr hw steal p]
      exact hfind p (by simp)
    obtain ⟨bs', lb', hstep⟩ := flushStep_run bs lb p hfp
    obtain ⟨i, b, hb, hc, hbs', hlb'⟩ := flushStep_some hstep
    have hw' : windows bs' = windows bs0 := by
      rw [hbs', windows_set (b.free_blk p) hb rfl rfl, hw]
    have htf : totalFree bs' = totalFree bs + 1 := by
      rw [hbs']
      exact totalFree_set hb p
    obtain ⟨bs2, lb2, hfold, hw2, htf2⟩ := ih bs' lb' hw'
      (fun q hq => hfind q (List.mem_cons_of_mem p hq))
    refine ⟨bs2, lb2, ?_, hw2, ?_⟩
    · rw [List.foldlM_cons, hstep]
      exact hfold
    · rw [htf2, htf]
      simp
      omega

theorem flushFold_preserves {steal : List Nat} {PGSIZE : Nat} (l : List Nat) :
    ∀ (bs : List buddy) (lb : Option Nat) (bs2 : List buddy) (lb2 : Option Nat),
    l.foldlM (flushStep steal) (bs, lb) = some (bs2, lb2) →
    (∀ x ∈ bs, buddyWF PGSIZE x) → (∀ p ∈ l, PGSIZE ∣ p) →
    (∀ x ∈ bs2, buddyWF PGSIZE x) ∧ windows bs2 = windows bs := by
  induction l with
  | nil =>
    intro bs lb bs2 lb2 h hwf _
    simp only [List.foldlM_nil] at h
    cases h
    exact ⟨hwf, rfl⟩
  | cons p rest ih =>
    intro bs lb bs2 lb2 h hwf hdvd
    rw [List.foldlM_cons] at h
    cases hstep : flushStep steal (bs, lb) p with
    | none => rw [hstep] at h; cases h
    | some st' =>
      rw [hstep] at h
      simp only [Option.bind_eq_bind, Option.some_bind] at h
      obtain ⟨bs', lb'⟩ := st'
      obtain ⟨i, b, hb, hc, hbs', hlb'⟩ := flushStep_some hstep
      have hwf' : ∀ x ∈ bs', buddyWF PGSIZE x := by
        rw [hbs']
        exact buddiesWF_set hwf
          (buddyWF_free_blk (hwf b (List.getElem?_mem hb)) (hdvd p (by simp)) hc)
      obtain ⟨h1, h2⟩ := ih bs' lb' bs2 lb2 h hwf'
        (fun q hq => hdvd q (List.mem_cons_of_mem p hq))
      refine ⟨h1, ?_⟩
      rw [h2, hbs', windows_set (b.free_blk p) hb rfl rfl]

theorem kfree_preserves_WF {H PGSIZE : Nat} {steal : List Nat} {st : kmem}
    {v size : Nat} {st2 : kmem} (hH : 2 ≤ H) (hwf : kmemWF H PGSIZE st)
    (hv : PGSIZE ∣ v) (hvc : ∃ b ∈ st.buddies, b.contains v = true)
    (h : kfree_model H PGSIZE steal st v size = some st2) :
    kmemWF H PGSIZE st2 := by
  obtain ⟨hlen, hentries, hbud⟩ := hwf
  unfold kfree_model at h
  by_cases hsz : size = PGSIZE
  · rw [if_pos hsz] at h
    by_cases hful : st.hot.length = H
    · rw [if_pos hful] at h
      cases hfold : (List.insertionSort (· ≤ ·) (st.hot.take (H / 2))).foldlM
          (flushStep steal) (st.buddies, none) with
      | none => rw [hfold] at h; cases h
      | some res =>
        rw [hfold] at h
        obtain ⟨bs2, lb2⟩ := res
        simp only [Option.some.injEq] at h
        subst h
        have hsortmem : ∀ p ∈ List.insertionSort (· ≤ ·) (st.hot.take (H / 2)),
            p ∈ st.hot := by
          intro p hp
          have := (List.perm_insertionSort (· ≤ ·) (st.hot.take (H / 2))).mem_iff.mp hp
          exact List.take_subset _ _ this
        obtain ⟨hwf2, hwin2⟩ := flushFold_preserves _ st.buddies none bs2 lb2
          hfold hbud (fun p hp => (hentries p (hsortmem p hp)).1)
        refine ⟨?_, ?_, hwf2⟩
        · simp only [List.length_append, List.length_drop, List.length_cons,
            List.length_nil]
          omega
        · intro p hp
          have hgood : PGSIZE ∣ p ∧ ∃ b ∈ st.buddies, b.contains p = true := by
            rcases List.mem_append.mp hp with hp | hp
            · exact hentries p (List.drop_subset _ _ hp)
            · simp at hp
              subst hp
              exact ⟨hv, hvc⟩
          refine ⟨hgood.1, ?_⟩
          rw [contains_iff_windows, hwin2, ← contains_iff_windows]
          exact hgood.2
    · rw [if_neg hful] at h
      simp only [Option.some.injEq] at h
      subst h
      refine ⟨?_, ?_, hbud⟩
      · simp only [List.length_append, List.length_cons, List.length_nil]
        omega
      · intro p hp
        rcases List.mem_append.mp hp with hp | hp
        · exact hentries p hp
        · simp at hp
          subst hp
          exact ⟨hv, hvc⟩
  · rw [if_neg hsz] at h
    cases hfind : findSteal steal st.buddies v with
    | none => rw [hfind] at h; cases h
    | some i =>
      simp only [hfind] at h
      obtain ⟨b, hb, hc⟩ := findSteal_some hfind
      simp only [hb, Option.some.injEq] at h
      subst h
      refine ⟨hlen, ?_, ?_⟩
      · intro p hp
        have hgood := hentries p hp
        refine ⟨hgood.1, ?_⟩
        rw [contains_iff_windows, windows_set (b.free_blk v) hb rfl rfl,
          ← contains_iff_windows]
        exact hgood.2
      · exact buddiesWF_set hbud
          (buddyWF_free_blk (hbud b (List.getElem?_mem hb)) hv hc)

theorem alloc_nothrow_some {maxsz size : Nat} {b b2 : buddy} {p : Nat}
    (h : b.alloc_nothrow maxsz size = some (p, b2)) :
    b.free = p :: b2.free ∧ b2.wbase = b.wbase ∧ b2.wend = b.wend := by
  unfold buddy.alloc_nothrow at h
  revert h
  split
  · intro h; cases h
  · cases hf : b.free with
    | nil => intro h; simp at h
    | cons q qs =>
      intro h
      simp only [Option.some.injEq, Prod.mk.injEq] at h
      obtain ⟨h1, h2⟩ := h
      subst h1
      subst h2
      exact ⟨rfl, rfl, rfl⟩

theorem kallocGeneral_preserves {maxsz size PGSIZE : Nat} :
    ∀ (steal : List Nat) (bs : List buddy) (locks : List Nat)
      (res : Option Nat) (bs3 : List buddy) (locks3 : List Nat),
    kallocGeneral maxsz size bs steal locks = (res, bs3, locks3) →
    (∀ x ∈ bs, buddyWF PGSIZE x) →
    (∀ x ∈ bs3, buddyWF PGSIZE x) ∧ windows bs3 = windows bs := by
  intro steal
  induction steal with
  | nil =>
    intro bs locks res bs3 locks3 h hwf
    unfold kallocGeneral at h
    simp only [Prod.mk.injEq] at h
    obtain ⟨-, h2, -⟩ := h
    subst h2
    exact ⟨hwf, rfl⟩
  | cons idx rest ih =>
    intro bs locks res bs3 locks3 h hwf
    unfold kallocGeneral at h
    cases hb : bs[idx]? with
    | none =>
      simp only [hb] at h
      exact ih bs _ res bs3 locks3 h hwf
    | some b =>
      simp only [hb] at h
      cases ha : b.alloc_nothrow maxsz size with
      | none =>
        simp only [ha] at h
        exact ih bs _ res bs3 locks3 h hwf
      | some pb =>
        obtain ⟨p, b2⟩ := pb
        simp only [ha, Prod.mk.injEq] at h
        obtain ⟨-, h2, -⟩ := h
        subst h2
        obtain ⟨hf, hw1, hw2⟩ := alloc_nothrow_some ha
        refine ⟨buddiesWF_set hwf ?_, windows_set b2 hb hw1 hw2⟩
        intro q hq
        rw [hw1, hw2]
        exact hwf b (List.getElem?_mem hb) q
          (by rw [hf]; exact List.mem_cons_of_mem p hq)

theorem refillGo_inl {H PGSIZE maxsz : Nat} :
    ∀ (steal : List Nat) (bs : List buddy) (hot : List Nat)
      (bs2 : List buddy) (hot2 : List Nat),
    refillGo H PGSIZE maxsz bs steal hot = .inl (bs2, hot2) →
    (∀ x ∈ bs, buddyWF PGSIZE x) →
    hot.length ≤ H / 2 →
    (∀ p ∈ hot, PGSIZE ∣ p ∧ ∃ w ∈ windows bs, w.1 ≤ p ∧ p < w.2) →
    (∀ x ∈ bs2, buddyWF PGSIZE x) ∧ windows bs2 = windows bs ∧
      hot2.length ≤ H / 2 ∧
      (∀ p ∈ hot2, PGSIZE ∣ p ∧ ∃ w ∈ windows bs, w.1 ≤ p ∧ p < w.2) := by
  intro steal bs hot
  induction bs, steal, hot using refillGo.induct H PGSIZE maxsz with
  | case1 bs hot h0 =>
    intro bs2 hot2 h hwf hle hgood
    unfold refillGo at h
    rw [if_pos h0] at h
    cases h
  | case2 bs hot h0 =>
    intro bs2 hot2 h hwf hle hgood
    unfold refillGo at h
    rw [if_neg h0] at h
    simp only [Sum.inl.injEq, Prod.mk.injEq] at h
    obtain ⟨h1, h2⟩ := h
    subst h1; subst h2
    exact ⟨hwf, rfl, hle, hgood⟩
  | case3 bs idx rest hot hlen hb ih =>
    intro bs2 hot2 h hwf hle hgood
    unfold refillGo at h
    rw [dif_pos hlen] at h
    simp only [hb] at h
    exact ih bs2 hot2 h hwf hle hgood
  | case4 bs idx rest hot hlen b hb ha ih =>
    intro bs2 hot2 h hwf hle hgood
    unfold refillGo at h
    rw [dif_pos hlen] at h
    simp only [hb, ha] at h
    exact ih bs2 hot2 h hwf hle hgood
  | case5 bs idx rest hot hlen b hb p b2 ha ih =>
    intro bs2 hot2 h hwf hle hgood
    unfold refillGo at h
    rw [dif_pos hlen] at h
    simp only [hb, ha] at h
    obtain ⟨hf, hw1, hw2⟩ := alloc_nothrow_some ha
    have hbwf := hwf b (List.getElem?_mem hb)
    have hpgood : PGSIZE ∣ p ∧ b.wbase ≤ p ∧ p < b.wend :=
      hbwf p (by rw [hf]; simp)
    have hwfset : ∀ x ∈ bs.set idx b2, buddyWF PGSIZE x := by
      refine buddiesWF_set hwf ?_
      intro q hq
      rw [hw1, hw2]
      exact hbwf q (by rw [hf]; exact List.mem_cons_of_mem p hq)
    have hwin : windows (bs.set idx b2) = windows bs := windows_set b2 hb hw1 hw2
    obtain ⟨r1, r2, r3, r4⟩ := ih bs2 hot2 h hwfset
      (by simp; omega)
      (by
        intro q hq
        rcases List.mem_append.mp hq with hq | hq
        · obtain ⟨hd, w, hw, hwp⟩ := hgood q hq
          exact ⟨hd, w, by rw [hwin]; exact hw, hwp⟩
        · simp at hq
          subst hq
          refine ⟨hpgood.1, (b.wbase, b.wend), ?_, hpgood.2.1, hpgood.2.2⟩
          rw [hwin]
          unfold windows
          exact List.mem_map_of_mem _ (List.getElem?_mem hb))
    rw [hwin] at r2
    refine ⟨r1, r2, r3, ?_⟩
    intro q hq
    obtain ⟨hd, w, hw, hwp⟩ := r4 q hq
    rw [hwin] at hw
    exact ⟨hd, w, hw, hwp⟩
  | case6 bs idx rest hot hlen =>
    intro bs2 hot2 h hwf hle hgood
    unfold refillGo at h
    rw [dif_neg hlen] at h
    simp only [Sum.inl.injEq, Prod.mk.injEq] at h
    obtain ⟨h1, h2⟩ := h
    subst h1; subst h2
    exact ⟨hwf, rfl, hle, hgood⟩

theorem refillGo_inr {H PGSIZE maxsz : Nat} :
    ∀ (steal : List Nat) (bs : List buddy) (hot : List Nat) (bs2 : List buddy),
    refillGo H PGSIZE maxsz bs steal hot = .inr bs2 →
    bs2 = bs ∧ hot.length = 0 := by
  intro steal bs hot
  induction bs, steal, hot using refillGo.induct H PGSIZE maxsz with
  | case1 bs hot h0 =>
    intro bs2 h
    unfold refillGo at h
    rw [if_pos h0] at h
    simp only [Sum.inr.injEq] at h
    exact ⟨h.symm, h0⟩
  | case2 bs hot h0 =>
    intro bs2 h
    unfold refillGo at h
    rw [if_neg h0] at h
    cases h
  | case3 bs idx rest hot hlen hb ih =>
    intro bs2 h
    unfold refillGo at h
    rw [dif_pos hlen] at h
    simp only [hb] at h
    exact ih bs2 h
  | case4 bs idx rest hot hlen b hb ha ih =>
    intro bs2 h
    unfold refillGo at h
    rw [dif_pos hlen] at h
    simp only [hb, ha] at h
    exact ih bs2 h
  | case5 bs idx rest hot hlen b hb p b2 ha ih =>
    intro bs2 h
    unfold refillGo at h
    rw [dif_pos hlen] at h
    simp only [hb, ha] at h
    obtain ⟨-, habs⟩ := ih bs2 h
    simp at habs
  | case6 bs idx rest hot hlen =>
    intro bs2 h
    unfold refillGo at h
    rw [dif_neg hlen] at h
    cases h

theorem kalloc_preserves_WF {H PGSIZE maxsz : Nat} {steal : List Nat}
    {st : kmem} {size : Nat} {res : Option Nat} {st2 : kmem}
    {locks : List Nat} (hwf : kmemWF H PGSIZE st)
    (h : kalloc_model H PGSIZE maxsz steal st size = (res, st2, locks)) :
    kmemWF H PGSIZE st2 := by
  obtain ⟨hlen, hentries, hbud⟩ := hwf
  unfold kalloc_model at h
  by_cases hsz : size = PGSIZE
  · rw [if_pos hsz] at h
    by_cases hz : st.hot.length = 0
    · rw [if_pos hz] at h
      cases hrf : refillGo H PGSIZE maxsz st.buddies steal [] with
      | inl p2 =>
        obtain ⟨bs2, hot2⟩ := p2
        simp only [hrf] at h
        obtain ⟨r1, r2, r3, r4⟩ := refillGo_inl steal st.buddies [] bs2 hot2
          hrf hbud (by simp) (by simp)
        have hstate : ∀ hot3 : List Nat, hot3.Sublist hot2 →
            st2 = ⟨bs2, hot3⟩ → kmemWF H PGSIZE st2 := by
          intro hot3 hsub heq
          subst heq
          refine ⟨?_, ?_, r1⟩
          · show hot3.length ≤ H
            have := hsub.length_le
            have := Nat.div_le_self H 2
            omega
          · intro p hp
            obtain ⟨hd, w, hw, hwp⟩ := r4 p (hsub.subset hp)
            refine ⟨hd, ?_⟩
            rw [contains_iff_windows, r2]
            exact ⟨w, hw, hwp⟩
        cases hlast : hot2.getLast? with
        | some p =>
          simp only [hlast, Prod.mk.injEq] at h
          exact hstate hot2.dropLast (List.dropLast_sublist hot2) h.2.1.symm
        | none =>
          simp only [hlast, Prod.mk.injEq] at h
          exact hstate hot2 (List.Sublist.refl hot2) h.2.1.symm
      | inr bs2 =>
        simp only [hrf] at h
        obtain ⟨hbs2, -⟩ := refillGo_inr steal st.buddies [] bs2 hrf
        subst hbs2
        cases hgen : kallocGeneral maxsz size st.buddies steal [] with
        | mk res3 rest3 =>
          obtain ⟨bs3, locks3⟩ := rest3
          simp only [hgen, Prod.mk.injEq] at h
          obtain ⟨-, h2, -⟩ := h
          subst h2
          obtain ⟨g1, g2⟩ := kallocGeneral_preserves steal st.buddies []
            res3 bs3 locks3 hgen hbud
          refine ⟨hlen, ?_, g1⟩
          intro p hp
          obtain ⟨hd, hc⟩ := hentries p hp
          refine ⟨hd, ?_⟩
          rw [contains_iff_windows, g2, ← contains_iff_windows]
          exact hc
    · rw [if_neg hz] at h
      cases hlast : st.hot.getLast? with
      | some p =>
        simp only [hlast, Prod.mk.injEq] at h
        obtain ⟨-, h2, -⟩ := h
        subst h2
        refine ⟨?_, ?_, hbud⟩
        · show st.hot.dropLast.length ≤ H
          have := (List.dropLast_sublist st.hot).length_le
          omega
        · intro q hq
          exact hentries q ((List.dropLast_sublist st.hot).subset hq)
      | none =>
        simp only [hlast, Prod.mk.injEq] at h
        obtain ⟨-, h2, -⟩ := h
        subst h2
        exact ⟨hlen, hentries, hbud⟩
  · rw [if_neg hsz] at h
    cases hgen : kallocGeneral maxsz size st.buddies steal [] with
    | mk res3 rest3 =>
      obtain ⟨bs3, locks3⟩ := rest3
      simp only [hgen, Prod.mk.injEq] at h
      obtain ⟨-, h2, -⟩ := h
      subst h2
      obtain ⟨g1, g2⟩ := kallocGeneral_preserves steal st.buddies []
        res3 bs3 locks3 hgen hbud
      refine ⟨hlen, ?_, g1⟩
      intro p hp
      obtain ⟨hd, hc⟩ := hentries p hp
      refine ⟨hd, ?_⟩
      rw [contains_iff_windows, g2, ← contains_iff_windows]
      exact hc

instance (PGSIZE : Nat) (b : buddy) : Decidable (buddyWF PGSIZE b) := by
  unfold buddyWF; infer_instance

instance (H PGSIZE : Nat) (st : kmem) : Decidable (kmemWF H PGSIZE st) := by
  unfold kmemWF; infer_instance

/-- Claim C9: the hot-cache invariant — `0 ≤ nhot ≤ HOT_MAX`, and every
cached pointer is page-aligned and inside some buddy window (with the
buddies themselves well-formed) — is preserved by every `kalloc`, and by
every `kfree` whose pointer satisfies the interface contract (it was
previously returned by `kalloc`, hence page-aligned and inside some buddy
window). -/
theorem C9_hot_cache_invariant (H PGSIZE maxsz : Nat) (steal : List Nat)
    (st : kmem) (hwf : kmemWF H PGSIZE st) :
    (∀ size res st2 locks,
      kalloc_model H PGSIZE maxsz steal st size = (res, st2, locks) →
      kmemWF H PGSIZE st2) ∧
    (∀ v size st2, 2 ≤ H → PGSIZE ∣ v →
      (∃ b ∈ st.buddies, b.contains v = true) →
      kfree_model H PGSIZE steal st v size = some st2 →
      kmemWF H PGSIZE st2) := by
  constructor
  · intro size res st2 locks h
    exact kalloc_preserves_WF hwf h
  · intro v size st2 hH hv hvc h
    exact kfree_preserves_WF hH hwf hv hvc h

theorem C9_hot_cache_invariant_witness :
    kmemWF 4 4096 ⟨[⟨0, 16384, [4096, 8192]⟩], [12288]⟩ ∧
      ((∀ size res st2 locks,
        kalloc_model 4 4096 16384 [0] ⟨[⟨0, 16384, [4096, 8192]⟩], [12288]⟩
          size = (res, st2, locks) → kmemWF 4 4096 st2) ∧
      (∀ v size st2, 2 ≤ 4 → 4096 ∣ v →
        (∃ b ∈ ([⟨0, 16384, [4096, 8192]⟩] : List buddy),
          b.contains v = true) →
        kfree_model 4 4096 [0] ⟨[⟨0, 16384, [4096, 8192]⟩], [12288]⟩ v size =
          some st2 → kmemWF 4 4096 st2)) :=
  ⟨by decide, C9_hot_cache_invariant 4 4096 16384 [0]
    ⟨[⟨0, 16384, [4096, 8192]⟩], [12288]⟩ (by decide)⟩

theorem kfree_fold_no_flush (H PGSIZE : Nat) (steal : List Nat) :
    ∀ (ps : List Nat) (bs : List buddy) (hot : List Nat),
    hot.length + ps.length ≤ H →
    ps.foldlM (fun st p => kfree_model H PGSIZE steal st p PGSIZE)
      (⟨bs, hot⟩ : kmem) = some ⟨bs, hot ++ ps⟩ := by
  intro ps
  induction ps with
  | nil =>
    intro bs hot _
    simp
  | cons p rest ih =>
    intro bs hot hle
    rw [List.foldlM_cons]
    have hnl : ¬((⟨bs, hot⟩ : kmem).hot.length = H) := by
      show ¬(hot.length = H)
      simp only [List.length_cons] at hle
      omega
    have hstep : kfree_model H PGSIZE steal ⟨bs, hot⟩ p PGSIZE =
        some ⟨bs, hot ++ [p]⟩ := by
      unfold kfree_model
      rw [if_pos rfl, if_neg hnl]
    rw [hstep]
    have hrest := ih bs (hot ++ [p])
      (by simp only [List.length_append, List.length_cons, List.length_nil] at hle ⊢; omega)
    simpa [List.append_assoc] using hrest

/-- Claim C4: freeing `HOT_MAX + 1` distinct pages on one CPU starting
from an empty hot cache: the first `HOT_MAX` frees only fill the cache;
the last free flushes the sorted lower half (`HOT_MAX/2` pages) to the
buddies, compacts the surviving upper half to the front and pushes the
freed pointer — so exactly `HOT_MAX/2` frees reach the buddies and `nhot`
ends at `HOT_MAX/2 + 1`. -/
theorem C4_hot_cache_overflow (H PGSIZE : Nat) (steal : List Nat)
    (bs : List buddy) (pages : List Nat)
    (hev : H % 2 = 0) (hH : 2 ≤ H)
    (hlen : pages.length = H + 1) (hnd : pages.Nodup)
    (hfind : ∀ p ∈ pages, (findSteal steal bs p).isSome = true) :
    ∃ v bs2,
      pages.drop H = [v] ∧
      pages.foldlM (fun st p => kfree_model H PGSIZE steal st p PGSIZE)
        (⟨bs, []⟩ : kmem) =
          some ⟨bs2, (pages.take H).drop (H / 2) ++ [v]⟩ ∧
      totalFree bs2 = totalFree bs + H / 2 ∧
      ((pages.take H).drop (H / 2) ++ [v]).length = H / 2 + 1 := by
  have hdlen : (pages.drop H).length = 1 := by
    rw [List.length_drop, hlen]
    omega
  obtain ⟨v, hv⟩ := List.length_eq_one.mp hdlen
  have htlen : (pages.take H).length = H := by
    rw [List.length_take, hlen]
    omega
  have hsplit : pages.take H ++ [v] = pages := by
    conv_rhs => rw [← List.take_append_drop H pages]
    rw [hv]
  -- the sorted lower half of the full cache
  have htt : (pages.take H).take (H / 2) = pages.take (H / 2) := by
    rw [List.take_take]
    congr 1
    omega
  have hsortperm := List.perm_insertionSort (· ≤ ·) (pages.take (H / 2))
  have hsortlen : (List.insertionSort (· ≤ ·) (pages.take (H / 2))).length
      = H / 2 := by
    rw [hsortperm.length_eq, List.length_take, hlen]
    omega
  obtain ⟨bs2, lb2, hflush, hwin, htf⟩ :=
    flushFold_run (List.insertionSort (· ≤ ·) (pages.take (H / 2))) bs none
      rfl
      (by
        intro p hp
        have hmem : p ∈ pages.take (H / 2) := hsortperm.mem_iff.mp hp
        exact hfind p (List.take_subset _ _ hmem))
  have hlast : kfree_model H PGSIZE steal ⟨bs, pages.take H⟩ v PGSIZE =
      some ⟨bs2, (pages.take H).drop (H / 2) ++ [v]⟩ := by
    unfold kfree_model
    rw [if_pos rfl, if_pos (by exact htlen)]
    rw [show (⟨bs, pages.take H⟩ : kmem).hot.take (H / 2) =
        pages.take (H / 2) from htt]
    rw [show (⟨bs, pages.take H⟩ : kmem).buddies = bs from rfl]
    simp only [hflush]
  refine ⟨v, bs2, hv, ?_, ?_, ?_⟩
  · conv_lhs => rw [← hsplit]
    rw [List.foldlM_append,
      kfree_fold_no_flush H PGSIZE steal (pages.take H) bs [] (by simp [htlen])]
    simp only [Option.bind_eq_bind, Option.some_bind, List.foldlM_cons,
      List.foldlM_nil, List.nil_append]
    rw [hlast]
    rfl
  · rw [htf, hsortlen]
  · simp only [List.length_append, List.length_drop, htlen,
      List.length_cons, List.length_nil]
    omega

theorem C4_hot_cache_overflow_witness :
    ∃ v bs2,
      ([4096, 8192, 12288, 16384, 20480] : List Nat).drop 4 = [v] ∧
      ([4096, 8192, 12288, 16384, 20480] : List Nat).foldlM
        (fun st p => kfree_model 4 4096 [0] st p 4096)
        (⟨[⟨0, 1048576, []⟩], []⟩ : kmem) =
          some ⟨bs2, (([4096, 8192, 12288, 16384, 20480] : List Nat).take 4).drop
            (4 / 2) ++ [v]⟩ ∧
      totalFree bs2 = totalFree [⟨0, 1048576, []⟩] + 4 / 2 ∧
      ((([4096, 8192, 12288, 16384, 20480] : List Nat).take 4).drop (4 / 2) ++
        [v]).length = 4 / 2 + 1 :=
  C4_hot_cache_overflow 4 4096 [0] [⟨0, 1048576, []⟩]
    [4096, 8192, 12288, 16384, 20480] (by decide) (by decide) (by decide)
    (by decide) (by decide)

/-- Modelled from the spec: `PGROUNDUP` from mmu.h (not in this
repository) — round up to the next page boundary. -/
def PGROUNDUP (PGSIZE a : Nat) : Nat := (a + PGSIZE - 1) / PGSIZE * PGSIZE

/-- The observable result of one `pgalloc()` call: the returned address,
the interval zero-filled by `memset(p, 0, PGSIZE)`, and the updated
`newend`. -/
structure pgres where
  addr : Nat
  zeroed_base : Nat
  zeroed_len : Nat
  newend : Nat
deriving Repr, DecidableEq

/-- `pgalloc()`: `if (newend == 0) newend = end;`, return the page-rounded
address, zero that page, and advance `newend` by `PGSIZE` from its old
(possibly unrounded) value. -/
def pgalloc (PGSIZE end_addr newend : Nat) : pgres :=
  ⟨PGROUNDUP PGSIZE (if newend = 0 then end_addr else newend),
    PGROUNDUP PGSIZE (if newend = 0 then end_addr else newend),
    PGSIZE,
    (if newend = 0 then end_addr else newend) + PGSIZE⟩

/-- `kalloc` before `kinited`: `assert(size == PGSIZE); return pgalloc();`
(a failed assert is a panic, modelled as `none`). -/
def kalloc_boot (PGSIZE end_addr newend size : Nat) : Option pgres :=
  if size = PGSIZE then some (pgalloc PGSIZE end_addr newend) else none

/-- The addresses returned by `n` successive `pgalloc()` calls. -/
def pgallocs (PGSIZE end_addr : Nat) : Nat → Nat → List Nat
  | 0, _ => []
  | n + 1, newend =>
    (pgalloc PGSIZE end_addr newend).addr ::
      pgallocs PGSIZE end_addr n (pgalloc PGSIZE end_addr newend).newend

theorem PGROUNDUP_dvd (PGSIZE a : Nat) : PGSIZE ∣ PGROUNDUP PGSIZE a :=
  Dvd.intro _ (Nat.mul_comm _ _)

theorem PGROUNDUP_add {PGSIZE : Nat} (a : Nat) (hp : 0 < PGSIZE) :
    PGROUNDUP PGSIZE (a + PGSIZE) = PGROUNDUP PGSIZE a + PGSIZE := by
  unfold PGROUNDUP
  have h1 : a + PGSIZE + PGSIZE - 1 = (a + PGSIZE - 1) + PGSIZE := by omega
  rw [h1, Nat.add_div_right _ hp, Nat.add_mul, one_mul]

theorem pgallocs_lb {PGSIZE : Nat} (end_addr : Nat) (hp : 0 < PGSIZE) :
    ∀ (n newend : Nat), ∀ p ∈ pgallocs PGSIZE end_addr n newend,
    PGROUNDUP PGSIZE (if newend = 0 then end_addr else newend) ≤ p := by
  intro n
  induction n with
  | zero =>
    intro ne p hmem
    simp [pgallocs] at hmem
  | succ m ih =>
    intro ne p hmem
    unfold pgallocs at hmem
    rcases List.mem_cons.mp hmem with h | h
    · subst h
      exact Nat.le_refl _
    · have hlb := ih (pgalloc PGSIZE end_addr ne).newend p h
      have hne0 : (pgalloc PGSIZE end_addr ne).newend =
          (if ne = 0 then end_addr else ne) + PGSIZE := rfl
      rw [hne0] at hlb
      rw [if_neg (by omega)] at hlb
      rw [PGROUNDUP_add _ hp] at hlb
      omega

theorem pgallocs_pairwise {PGSIZE : Nat} (end_addr : Nat) (hp : 0 < PGSIZE) :
    ∀ (n newend : Nat),
    List.Pairwise (fun a b => a + PGSIZE ≤ b)
      (pgallocs PGSIZE end_addr n newend) := by
  intro n
  induction n with
  | zero =>
    intro ne
    simp [pgallocs]
  | succ m ih =>
    intro ne
    unfold pgallocs
    refine List.pairwise_cons.mpr ⟨?_, ih _⟩
    intro p hmem
    have hlb := pgallocs_lb end_addr hp m (pgalloc PGSIZE end_addr ne).newend
      p hmem
    have hne0 : (pgalloc PGSIZE end_addr ne).newend =
        (if ne = 0 then end_addr else ne) + PGSIZE := rfl
    rw [hne0, if_neg (by omega), PGROUNDUP_add _ hp] at hlb
    exact hlb

theorem pgallocs_dvd {PGSIZE : Nat} (end_addr : Nat) :
    ∀ (n newend : Nat), ∀ p ∈ pgallocs PGSIZE end_addr n newend, PGSIZE ∣ p := by
  intro n
  induction n with
  | zero =>
    intro ne p hmem
    simp [pgallocs] at hmem
  | succ m ih =>
    intro ne p hmem
    unfold pgallocs at hmem
    rcases List.mem_cons.mp hmem with h | h
    · subst h
      exact PGROUNDUP_dvd PGSIZE _
    · exact ih _ p h

/-- Claim C10: before `kinited`, `kalloc` asserts that exactly `PGSIZE`
bytes are requested and delegates to the bump allocator `pgalloc`, which
returns a page-aligned address whose whole page was just zero-filled, and
successive calls return strictly increasing, non-overlapping pages (each
next address is at least one full page above the previous one). -/
theorem C10_boot_bump_allocator (PGSIZE end_addr : Nat) (hp : 0 < PGSIZE) :
    (∀ newend size, size ≠ PGSIZE →
      kalloc_boot PGSIZE end_addr newend size = none) ∧
    (∀ newend, kalloc_boot PGSIZE end_addr newend PGSIZE =
      some (pgalloc PGSIZE end_addr newend)) ∧
    (∀ newend, PGSIZE ∣ (pgalloc PGSIZE end_addr newend).addr ∧
      (pgalloc PGSIZE end_addr newend).zeroed_base =
        (pgalloc PGSIZE end_addr newend).addr ∧
      (pgalloc PGSIZE end_addr newend).zeroed_len = PGSIZE) ∧
    (∀ n newend,
      (∀ p ∈ pgallocs PGSIZE end_addr n newend, PGSIZE ∣ p) ∧
      List.Pairwise (fun a b => a + PGSIZE ≤ b)
        (pgallocs PGSIZE end_addr n newend)) := by
  refine ⟨?_, ?_, ?_, ?_⟩
  · intro newend size hsz
    unfold kalloc_boot
    rw [if_neg hsz]
  · intro newend
    unfold kalloc_boot
    rw [if_pos rfl]
  · intro newend
    exact ⟨PGROUNDUP_dvd PGSIZE _, rfl, rfl⟩
  · intro n newend
    exact ⟨pgallocs_dvd end_addr n newend, pgallocs_pairwise end_addr hp n newend⟩

theorem C10_boot_bump_allocator_witness :
    (∀ newend size, size ≠ 4096 →
      kalloc_boot 4096 123456 newend size = none) ∧
    (∀ newend, kalloc_boot 4096 123456 newend 4096 =
      some (pgalloc 4096 123456 newend)) ∧
    (∀ newend, 4096 ∣ (pgalloc 4096 123456 newend).addr ∧
      (pgalloc 4096 123456 newend).zeroed_base =
        (pgalloc 4096 123456 newend).addr ∧
      (pgalloc 4096 123456 newend).zeroed_len = 4096) ∧
    (∀ n newend,
      (∀ p ∈ pgallocs 4096 123456 n newend, 4096 ∣ p) ∧
      List.Pairwise (fun a b => a + 4096 ≤ b)
        (pgallocs 4096 123456 n newend)) :=
  C10_boot_bump_allocator 4096 123456 (by decide)
